import Mathlib

/-!
# secure-nats-chat: the secure messaging envelope

A shallow embedding of `secure-nats-chat.go` and of the parts of the Go standard
library it calls (`encoding/base64`, `crypto/sha256`, `crypto/aes`,
`crypto/cipher` GCM, `strings.TrimSpace`), followed by theorems about the
program's envelope protocol.

Go strings and byte slices are finite sequences of bytes.  Machine words are
natural numbers reduced explicitly modulo the word size.
-/

namespace SecureNatsChat

/-! ## Bytes and strings -/

/-- A byte: a natural number below 256. -/
abbrev Byte := Fin 256

/-- A Go `string` (and a `[]byte`): a finite sequence of bytes, not necessarily UTF-8. -/
abbrev GoString := List Byte

/-- The conversion `byte(x)` of an unsigned integer: reduction modulo 256. -/
def toByte (n : Nat) : Byte := ⟨n % 256, Nat.mod_lt n (by decide)⟩

/-- The bytes of a Go string literal: the UTF-8 encoding of its characters. -/
def goStr (s : String) : GoString :=
  (s.data.flatMap String.utf8EncodeChar).map (fun b => toByte b.toNat)

/-! ## encoding/base64, `StdEncoding` -/

namespace base64

/-- The standard alphabet, `const encodeStd`. -/
def encodeStd : GoString :=
  goStr "ABCDEFGHIJKLMNOPQRSTUVWXYZabcdefghijklmnopqrstuvwxyz0123456789+/"

/-- The padding character `StdPadding = '='`. -/
def padChar : Byte := 61

/-- The table lookup `enc.encode[i]`. -/
def encode (i : Nat) : Byte := encodeStd.getD i 0

/-- The table `enc.decodeMap`: every entry is `0xFF` except that the entry of the
`i`-th alphabet character is `i`. -/
def decodeMap (c : Byte) : Nat :=
  if encodeStd.indexOf c < encodeStd.length then encodeStd.indexOf c else 0xFF

/-- The method `Encode` of `StdEncoding`, returning the text that `EncodeToString` returns:
three source bytes become four characters; a remainder of one or two bytes is
encoded into two or three characters and padded to four. -/
def EncodeToString : List Byte → GoString
  | [] => []
  | [a] =>
      let val := a.val <<< 16
      [encode (val >>> 18 &&& 0x3F), encode (val >>> 12 &&& 0x3F), padChar, padChar]
  | [a, b] =>
      let val := a.val <<< 16 ||| b.val <<< 8
      [encode (val >>> 18 &&& 0x3F), encode (val >>> 12 &&& 0x3F),
        encode (val >>> 6 &&& 0x3F), padChar]
  | a :: b :: c :: rest =>
      let val := a.val <<< 16 ||| b.val <<< 8 ||| c.val
      encode (val >>> 18 &&& 0x3F) :: encode (val >>> 12 &&& 0x3F) ::
        encode (val >>> 6 &&& 0x3F) :: encode (val &&& 0x3F) :: EncodeToString rest

/-- The tail of `decodeQuantum`: the `dlen` sextets collected in `dbuf` are packed
into a 24-bit value, of which `dlen - 1` bytes are written. -/
def quantumBytes (dlen : Nat) (dbuf : List Nat) : List Byte :=
  let val := dbuf.getD 0 0 <<< 18 ||| dbuf.getD 1 0 <<< 12 ||| dbuf.getD 2 0 <<< 6 |||
    dbuf.getD 3 0
  ([toByte (val >>> 16), toByte (val >>> 8), toByte (val >>> 0)]).take (dlen - 1)

/-- The loops `for si < len(src) && (src[si] == '\n' || src[si] == '\r')`. -/
def skipNewlines : List Byte → List Byte
  | [] => []
  | c :: src => if c = 10 ∨ c = 13 then skipNewlines src else c :: src

/-- The method `Decode` with its calls of `decodeQuantum`: `j` sextets of the current
quantum are in `dbuf`, `src` is the unread input.  The result is the bytes
written from here on and whether a `CorruptInputError` was returned.  (The
eight- and four-character fast paths of `Decode` write what `decodeQuantum`
writes and are not modelled separately.) -/
def decodeFrom : Nat → List Nat → List Byte → List Byte × Bool
  | j, _, [] =>
      -- len(src) == si: fine between quanta, corrupt inside one (padding is required)
      if j = 0 then ([], false) else ([], true)
  | j, dbuf, c :: src =>
      if decodeMap c ≠ 0xFF then
        if j = 3 then
          -- the quantum is complete: three bytes are written, the next one starts
          let r := decodeFrom 0 [] src
          (quantumBytes 4 (dbuf ++ [decodeMap c]) ++ r.1, r.2)
        else decodeFrom (j + 1) (dbuf ++ [decodeMap c]) src
      else if c = 10 ∨ c = 13 then decodeFrom j dbuf src
      else if c ≠ padChar then ([], true)
      else if j < 2 then
        -- incorrect padding
        ([], true)
      else if j = 2 then
        -- "==" is expected, the first "=" is already consumed
        match skipNewlines src with
        | [] => ([], true)
        | c2 :: src2 =>
            if c2 ≠ padChar then ([], true)
            else (quantumBytes 2 dbuf, decide (skipNewlines src2 ≠ []))
      else
        -- trailing garbage after the padding is an error, yet the quantum is written
        (quantumBytes 3 dbuf, decide (skipNewlines src ≠ []))

/-- The method `DecodeString` of `StdEncoding`: the decoded bytes `dbuf[:n]` and
whether the error is non-nil.  On an error the bytes written before it are
still returned. -/
def DecodeString (s : GoString) : List Byte × Bool := decodeFrom 0 [] s

end base64

/-! ## crypto/sha256 -/

namespace sha256

/-- The constant `sha256.Size`: the size of a checksum in bytes. -/
def Size : Nat := 32

/-- The block size `chunk` in bytes. -/
def chunk : Nat := 64

/-- The round constants `_K`. -/
def _K : List Nat :=
  [
   0x428a2f98, 0x71374491, 0xb5c0fbcf, 0xe9b5dba5, 0x3956c25b, 0x59f111f1,
   0x923f82a4, 0xab1c5ed5, 0xd807aa98, 0x12835b01, 0x243185be, 0x550c7dc3,
   0x72be5d74, 0x80deb1fe, 0x9bdc06a7, 0xc19bf174, 0xe49b69c1, 0xefbe4786,
   0x0fc19dc6, 0x240ca1cc, 0x2de92c6f, 0x4a7484aa, 0x5cb0a9dc, 0x76f988da,
   0x983e5152, 0xa831c66d, 0xb00327c8, 0xbf597fc7, 0xc6e00bf3, 0xd5a79147,
   0x06ca6351, 0x14292967, 0x27b70a85, 0x2e1b2138, 0x4d2c6dfc, 0x53380d13,
   0x650a7354, 0x766a0abb, 0x81c2c92e, 0x92722c85, 0xa2bfe8a1, 0xa81a664b,
   0xc24b8b70, 0xc76c51a3, 0xd192e819, 0xd6990624, 0xf40e3585, 0x106aa070,
   0x19a4c116, 0x1e376c08, 0x2748774c, 0x34b0bcb5, 0x391c0cb3, 0x4ed8aa4a,
   0x5b9cca4f, 0x682e6ff3, 0x748f82ee, 0x78a5636f, 0x84c87814, 0x8cc70208,
   0x90befffa, 0xa4506ceb, 0xbef9a3f7, 0xc67178f2]

/-- The eight chaining words `dig.h`. -/
structure State where
  h0 : Nat
  h1 : Nat
  h2 : Nat
  h3 : Nat
  h4 : Nat
  h5 : Nat
  h6 : Nat
  h7 : Nat
  deriving DecidableEq

/-- The initial chaining words `init0 .. init7` set by `Reset`. -/
def init : State :=
  ⟨0x6a09e667, 0xbb67ae85, 0x3c6ef372, 0xa54ff53a, 0x510e527f, 0x9b05688c, 0x1f83d9ab,
    0x5be0cd19⟩

/-- The rotation `bits.RotateLeft32(x, -k)` of a 32-bit word. -/
def rotr (x k : Nat) : Nat := (x >>> k ||| x <<< (32 - k)) % 2 ^ 32

/-- The big-endian word `uint32(p[j])<<24 | uint32(p[j+1])<<16 | uint32(p[j+2])<<8 | uint32(p[j+3])`. -/
def word (p : List Byte) (j : Nat) : Nat :=
  (p.getD j 0).val <<< 24 ||| (p.getD (j + 1) 0).val <<< 16 ||| (p.getD (j + 2) 0).val <<< 8 |||
    (p.getD (j + 3) 0).val

/-- One step of the second loop of `blockGeneric`: `w[i]` is appended to `w[0..i-1]`. -/
def extend (w : List Nat) (i : Nat) : List Nat :=
  let v1 := w.getD (i - 2) 0
  let t1 := rotr v1 17 ^^^ rotr v1 19 ^^^ v1 >>> 10
  let v2 := w.getD (i - 15) 0
  let t2 := rotr v2 7 ^^^ rotr v2 18 ^^^ v2 >>> 3
  w ++ [(t1 + w.getD (i - 7) 0 + t2 + w.getD (i - 16) 0) % 2 ^ 32]

/-- The message schedule `w[0..63]` of the block at the start of `p`. -/
def schedule (p : List Byte) : List Nat :=
  (List.range' 16 48).foldl extend ((List.range 16).map (fun i => word p (i * 4)))

/-- One iteration of the third loop of `blockGeneric`, on the working variables `a .. h`. -/
def round (s : State) (k w : Nat) : State :=
  let t1 := (s.h7 + (rotr s.h4 6 ^^^ rotr s.h4 11 ^^^ rotr s.h4 25) +
    ((s.h4 &&& s.h5) ^^^ ((s.h4 ^^^ 0xffffffff) &&& s.h6)) + k + w) % 2 ^ 32
  let t2 := ((rotr s.h0 2 ^^^ rotr s.h0 13 ^^^ rotr s.h0 22) +
    ((s.h0 &&& s.h1) ^^^ (s.h0 &&& s.h2) ^^^ (s.h1 &&& s.h2))) % 2 ^ 32
  ⟨(t1 + t2) % 2 ^ 32, s.h0, s.h1, s.h2, (s.h3 + t1) % 2 ^ 32, s.h4, s.h5, s.h6⟩

/-- The body of the outer loop of `blockGeneric`: one 64-byte block is absorbed. -/
def block (h : State) (p : List Byte) : State :=
  let w := schedule p
  let s := (List.range 64).foldl (fun s i => round s (_K.getD i 0) (w.getD i 0)) h
  ⟨(h.h0 + s.h0) % 2 ^ 32, (h.h1 + s.h1) % 2 ^ 32, (h.h2 + s.h2) % 2 ^ 32,
    (h.h3 + s.h3) % 2 ^ 32, (h.h4 + s.h4) % 2 ^ 32, (h.h5 + s.h5) % 2 ^ 32,
    (h.h6 + s.h6) % 2 ^ 32, (h.h7 + s.h7) % 2 ^ 32⟩

/-- The function `blockGeneric`: every whole block of `p` is absorbed in turn. -/
def blockGeneric (h : State) (p : List Byte) : State :=
  (List.range (p.length / chunk)).foldl (fun h i => block h (p.drop (chunk * i))) h

/-- The bytes written by `binary.BigEndian.PutUint32`. -/
def putUint32 (x : Nat) : List Byte :=
  [toByte (x >>> 24), toByte (x >>> 16), toByte (x >>> 8), toByte x]

/-- The bytes written by `binary.BigEndian.PutUint64`. -/
def putUint64 (x : Nat) : List Byte :=
  [toByte (x >>> 56), toByte (x >>> 48), toByte (x >>> 40), toByte (x >>> 32),
    toByte (x >>> 24), toByte (x >>> 16), toByte (x >>> 8), toByte x]

/-- The padding that `checkSum` writes after `len` bytes: a one bit, zero bits up to 56
bytes modulo 64, and the length in bits as a 64-bit big-endian integer. -/
def padding (len : Nat) : List Byte :=
  let t := if len % 64 < 56 then 56 - len % 64 else 64 + 56 - len % 64
  ((0x80 : Byte) :: List.replicate (t - 1) 0) ++ putUint64 ((len <<< 3) % 2 ^ 64)

/-- The checksum of the bytes `data`: what `checkSum` returns when `data` is all that
was written. -/
def checkSum (data : List Byte) : List Byte :=
  let s := blockGeneric init (data ++ padding data.length)
  putUint32 s.h0 ++ putUint32 s.h1 ++ putUint32 s.h2 ++ putUint32 s.h3 ++
    putUint32 s.h4 ++ putUint32 s.h5 ++ putUint32 s.h6 ++ putUint32 s.h7

/-- The hash object `*digest` returned by `sha256.New()`.  Its chaining words, buffer and
length are determined by the bytes written so far, which is what is recorded. -/
structure digest where
  written : List Byte
  deriving DecidableEq

/-- The constructor `sha256.New()`: a digest after `Reset`. -/
def New : digest := ⟨[]⟩

/-- The method `Write`: more data is added to the running hash. -/
def digest.Write (d : digest) (p : List Byte) : digest := ⟨d.written ++ p⟩

/-- The method `Sum(nil)`: the checksum of what was written.  `Sum` works on a copy
(`d0 := *d`), so the digest itself is left as it was and can be written to further. -/
def digest.Sum (d : digest) : List Byte := checkSum d.written

end sha256

/-! ## crypto/aes -/

namespace aes

/-- The constant `aes.BlockSize`: the AES block size in bytes. -/
def BlockSize : Nat := 16

/-- The substitution table `sbox0` of FIPS-197. -/
def sbox0 : List Nat :=
  [
   0x63, 0x7c, 0x77, 0x7b, 0xf2, 0x6b, 0x6f, 0xc5, 0x30, 0x01, 0x67, 0x2b, 0xfe, 0xd7, 0xab, 0x76,
   0xca, 0x82, 0xc9, 0x7d, 0xfa, 0x59, 0x47, 0xf0, 0xad, 0xd4, 0xa2, 0xaf, 0x9c, 0xa4, 0x72, 0xc0,
   0xb7, 0xfd, 0x93, 0x26, 0x36, 0x3f, 0xf7, 0xcc, 0x34, 0xa5, 0xe5, 0xf1, 0x71, 0xd8, 0x31, 0x15,
   0x04, 0xc7, 0x23, 0xc3, 0x18, 0x96, 0x05, 0x9a, 0x07, 0x12, 0x80, 0xe2, 0xeb, 0x27, 0xb2, 0x75,
   0x09, 0x83, 0x2c, 0x1a, 0x1b, 0x6e, 0x5a, 0xa0, 0x52, 0x3b, 0xd6, 0xb3, 0x29, 0xe3, 0x2f, 0x84,
   0x53, 0xd1, 0x00, 0xed, 0x20, 0xfc, 0xb1, 0x5b, 0x6a, 0xcb, 0xbe, 0x39, 0x4a, 0x4c, 0x58, 0xcf,
   0xd0, 0xef, 0xaa, 0xfb, 0x43, 0x4d, 0x33, 0x85, 0x45, 0xf9, 0x02, 0x7f, 0x50, 0x3c, 0x9f, 0xa8,
   0x51, 0xa3, 0x40, 0x8f, 0x92, 0x9d, 0x38, 0xf5, 0xbc, 0xb6, 0xda, 0x21, 0x10, 0xff, 0xf3, 0xd2,
   0xcd, 0x0c, 0x13, 0xec, 0x5f, 0x97, 0x44, 0x17, 0xc4, 0xa7, 0x7e, 0x3d, 0x64, 0x5d, 0x19, 0x73,
   0x60, 0x81, 0x4f, 0xdc, 0x22, 0x2a, 0x90, 0x88, 0x46, 0xee, 0xb8, 0x14, 0xde, 0x5e, 0x0b, 0xdb,
   0xe0, 0x32, 0x3a, 0x0a, 0x49, 0x06, 0x24, 0x5c, 0xc2, 0xd3, 0xac, 0x62, 0x91, 0x95, 0xe4, 0x79,
   0xe7, 0xc8, 0x37, 0x6d, 0x8d, 0xd5, 0x4e, 0xa9, 0x6c, 0x56, 0xf4, 0xea, 0x65, 0x7a, 0xae, 0x08,
   0xba, 0x78, 0x25, 0x2e, 0x1c, 0xa6, 0xb4, 0xc6, 0xe8, 0xdd, 0x74, 0x1f, 0x4b, 0xbd, 0x8b, 0x8a,
   0x70, 0x3e, 0xb5, 0x66, 0x48, 0x03, 0xf6, 0x0e, 0x61, 0x35, 0x57, 0xb9, 0x86, 0xc1, 0x1d, 0x9e,
   0xe1, 0xf8, 0x98, 0x11, 0x69, 0xd9, 0x8e, 0x94, 0x9b, 0x1e, 0x87, 0xe9, 0xce, 0x55, 0x28, 0xdf,
   0x8c, 0xa1, 0x89, 0x0d, 0xbf, 0xe6, 0x42, 0x68, 0x41, 0x99, 0x2d, 0x0f, 0xb0, 0x54, 0xbb, 0x16]

/-- The table `powx`: powers of `x` in the field of the round constants. -/
def powx : List Nat :=
  [0x01, 0x02, 0x04, 0x08, 0x10, 0x20, 0x40, 0x80, 0x1b, 0x36, 0x6c, 0xd8, 0xab, 0x4d, 0x9a, 0x2f]

/-- The function `subw`: the S-box applied to each byte of a word. -/
def subw (w : Nat) : Nat :=
  sbox0.getD (w >>> 24) 0 <<< 24 ||| sbox0.getD (w >>> 16 &&& 0xff) 0 <<< 16 |||
    sbox0.getD (w >>> 8 &&& 0xff) 0 <<< 8 ||| sbox0.getD (w &&& 0xff) 0

/-- The function `rotw`: a word rotated left by 8 bits. -/
def rotw (w : Nat) : Nat := (w <<< 8 ||| w >>> 24) % 2 ^ 32

/-- The word `binary.BigEndian.Uint32(key[4*i:])`. -/
def keyWord (key : List Byte) (i : Nat) : Nat :=
  (key.getD (4 * i) 0).val <<< 24 ||| (key.getD (4 * i + 1) 0).val <<< 16 |||
    (key.getD (4 * i + 2) 0).val <<< 8 ||| (key.getD (4 * i + 3) 0).val

/-- One iteration of the second loop of `expandKeyGo`: `enc[i]` is appended. -/
def expandStep (nk : Nat) (enc : List Nat) (i : Nat) : List Nat :=
  let t := enc.getD (i - 1) 0
  let t := if i % nk = 0 then subw (rotw t) ^^^ (powx.getD (i / nk - 1) 0 <<< 24)
    else if nk > 6 ∧ i % nk = 4 then subw t else t
  enc ++ [enc.getD (i - nk) 0 ^^^ t]

/-- The encryption half of `expandKeyGo`: the `len(key) + 28` round key words `enc`. -/
def expandKeyGo (key : List Byte) : List Nat :=
  let nk := key.length / 4
  (List.range' nk (key.length + 28 - nk)).foldl (expandStep nk)
    ((List.range nk).map (keyWord key))

/-- The cipher object `*aesCipher`: the expanded encryption key. -/
structure aesCipher where
  enc : List Nat
  deriving DecidableEq

/-- The constructor `aes.NewCipher`: a key of 16, 24 or 32 bytes is expanded, any other
length is a `KeySizeError` (`none`). -/
def NewCipher (key : List Byte) : Option aesCipher :=
  if key.length = 16 ∨ key.length = 24 ∨ key.length = 32 then some ⟨expandKeyGo key⟩
  else none

/-- Multiplication by `x` in GF(2^8) modulo `x^8 + x^4 + x^3 + x + 1`. -/
def xtime (a : Nat) : Nat := if a &&& 0x80 = 0 then a <<< 1 else (a <<< 1 ^^^ 0x1b) % 256

/-- The byte `r` of column `c` of the round key `k`. -/
def roundKeyByte (enc : List Nat) (k c r : Nat) : Nat :=
  enc.getD (4 * k + c) 0 >>> (8 * (3 - r)) &&& 0xff

/-- The step AddRoundKey on a state of 16 bytes in column order. -/
def addRoundKey (enc : List Nat) (k : Nat) (s : List Nat) : List Nat :=
  (List.range 16).map (fun i => s.getD i 0 ^^^ roundKeyByte enc k (i / 4) (i % 4))

/-- The steps SubBytes and ShiftRows. -/
def subShift (s : List Nat) : List Nat :=
  (List.range 16).map (fun i => sbox0.getD (s.getD (i % 4 + 4 * ((i / 4 + i % 4) % 4)) 0) 0)

/-- The step MixColumns on one column. -/
def mixColumn (a0 a1 a2 a3 : Nat) : List Nat :=
  [xtime a0 ^^^ (xtime a1 ^^^ a1) ^^^ a2 ^^^ a3,
   a0 ^^^ xtime a1 ^^^ (xtime a2 ^^^ a2) ^^^ a3,
   a0 ^^^ a1 ^^^ xtime a2 ^^^ (xtime a3 ^^^ a3),
   (xtime a0 ^^^ a0) ^^^ a1 ^^^ a2 ^^^ xtime a3]

/-- The step MixColumns. -/
def mixColumns (s : List Nat) : List Nat :=
  (List.range 4).flatMap (fun c =>
    mixColumn (s.getD (4 * c) 0) (s.getD (4 * c + 1) 0) (s.getD (4 * c + 2) 0)
      (s.getD (4 * c + 3) 0))

/-- The method `Encrypt` on one block: the FIPS-197 cipher that `encryptBlockGo`
computes with its combined tables. -/
def aesCipher.Encrypt (c : aesCipher) (src : List Byte) : List Byte :=
  let nr := c.enc.length / 4 - 1
  let s0 := addRoundKey c.enc 0 ((List.range 16).map (fun i => (src.getD i 0).val))
  let s1 := (List.range' 1 (nr - 1)).foldl
    (fun s k => addRoundKey c.enc k (mixColumns (subShift s))) s0
  let s2 := addRoundKey c.enc nr (subShift s1)
  (List.range 16).map (fun i => toByte (s2.getD i 0))

end aes

/-! ## crypto/cipher, GCM -/

namespace cipher

/-- The constant `gcmBlockSize`. -/
def gcmBlockSize : Nat := 16

/-- The constant `gcmTagSize`. -/
def gcmTagSize : Nat := 16

/-- The constant `gcmStandardNonceSize`. -/
def gcmStandardNonceSize : Nat := 12

/-- The largest plaintext `Seal` accepts, `((1<<32)-2)*BlockSize` bytes. -/
def gcmMaxPlaintext : Nat := (2 ^ 32 - 2) * aes.BlockSize

/-- The AEAD object `*gcm`: the block cipher, the nonce size and the tag size. -/
structure gcm where
  cipher : aes.aesCipher
  nonceSize : Nat
  tagSize : Nat
  deriving DecidableEq

/-- The constructor `cipher.NewGCMWithNonceSize` on an AES cipher (whose block size is 16):
a nonce size of zero is an error (`none`), the tag size is `gcmTagSize`. -/
def NewGCMWithNonceSize (cipher : aes.aesCipher) (size : Nat) : Option gcm :=
  if size = 0 then none else some ⟨cipher, size, gcmTagSize⟩

/-- A field element of GF(2^128) read from a block: the first 16 bytes as a big-endian
integer, a short block being padded with zero bytes. -/
def blockValue (b : List Byte) : Nat :=
  (List.range 16).foldl (fun acc i => acc <<< 8 ||| (b.getD i 0).val) 0

/-- The 16 bytes of a field element, big-endian. -/
def blockBytes (x : Nat) : List Byte :=
  (List.range 16).map (fun i => toByte (x >>> (8 * (15 - i))))

/-- The reduction constant of GCM: `x^128 = 1 + x + x^2 + x^7`, bits in GCM order. -/
def gcmR : Nat := 0xe1 <<< 120

/-- One step of the multiplication of SP 800-38D: bit `i` of `x` is consumed. -/
def mulStep (x : Nat) (zv : Nat × Nat) (i : Nat) : Nat × Nat :=
  (if x >>> (127 - i) &&& 1 = 1 then zv.1 ^^^ zv.2 else zv.1,
   if zv.2 &&& 1 = 0 then zv.2 >>> 1 else zv.2 >>> 1 ^^^ gcmR)

/-- The product in GF(2^128) that the method `mul` computes from its table of
multiples of the hash key. -/
def mul (x y : Nat) : Nat := ((List.range 128).foldl (mulStep x) (0, y)).1

/-- The method `update`: `data` is absorbed into GHASH block by block, a last short
block being padded with zero bytes. -/
def update (h y : Nat) (data : List Byte) : Nat :=
  (List.range ((data.length + 15) / 16)).foldl
    (fun y i => mul (y ^^^ blockValue (data.drop (16 * i))) h) y

/-- The hash key of GHASH: the encryption of the zero block. -/
def gcm.hashKey (g : gcm) : Nat := blockValue (g.cipher.Encrypt (List.replicate 16 0))

/-- The method `deriveCounter`: the initial counter block of a nonce. -/
def gcm.deriveCounter (g : gcm) (nonce : List Byte) : List Byte :=
  if nonce.length = gcmStandardNonceSize then nonce ++ [0, 0, 0, 1]
  else
    let y := update g.hashKey 0 nonce
    let y := y ^^^ (nonce.length * 8) % 2 ^ 64
    blockBytes (mul y g.hashKey)

/-- The function `gcmInc32`: the last four bytes, as a big-endian integer, are incremented
modulo `2^32`. -/
def gcmInc32 (counter : List Byte) : List Byte :=
  counter.take 12 ++ sha256.putUint32 ((sha256.word counter 12 + 1) % 2 ^ 32)

/-- The function `subtle.XORBytes`: the bytewise exclusive or, as long as the shorter
argument. -/
def xorBytes (x y : List Byte) : List Byte :=
  List.zipWith (fun a b => toByte (a.val ^^^ b.val)) x y

/-- The masks of `n` successive counter blocks, concatenated. -/
def gcm.keystream (g : gcm) (counter : List Byte) : Nat → List Byte
  | 0 => []
  | n + 1 => g.cipher.Encrypt counter ++ g.keystream (gcmInc32 counter) n

/-- The method `counterCrypt`: each block of `inp` is xored with the encryption of the
next counter block. -/
def gcm.counterCrypt (g : gcm) (inp counter : List Byte) : List Byte :=
  xorBytes inp (g.keystream counter ((inp.length + 15) / 16))

/-- The method `auth`: GHASH of the additional data and the ciphertext with their
lengths in bits, masked. -/
def gcm.auth (g : gcm) (ciphertext additionalData tagMask : List Byte) : List Byte :=
  let y := update g.hashKey 0 additionalData
  let y := update g.hashKey y ciphertext
  let y := y ^^^ ((additionalData.length * 8) % 2 ^ 64) <<< 64 ^^^
    (ciphertext.length * 8) % 2 ^ 64
  xorBytes (blockBytes (mul y g.hashKey)) tagMask

/-- The method `Seal(nil, nonce, plaintext, data)`: the ciphertext followed by the tag.
A nonce of the wrong length and a plaintext above `gcmMaxPlaintext` make it panic
(`none`). -/
def gcm.Seal (g : gcm) (nonce plaintext data : List Byte) : Option (List Byte) :=
  if nonce.length ≠ g.nonceSize then none
  else if plaintext.length > gcmMaxPlaintext then none
  else
    let counter := g.deriveCounter nonce
    let tagMask := g.cipher.Encrypt counter
    let out := g.counterCrypt plaintext (gcmInc32 counter)
    let tag := g.auth out data tagMask
    some (out ++ tag.take g.tagSize)

/-- How a call of `Open` ends. -/
inductive Opened where
  /-- The call panics: "incorrect nonce length given to GCM". -/
  | panics
  /-- The call returns `nil, errOpen`: "message authentication failed". -/
  | errOpen
  /-- The call returns the plaintext and a nil error. -/
  | plaintext (v : List Byte)
  deriving DecidableEq

/-- The method `Open(nil, nonce, ciphertext, data)`. -/
def gcm.Open (g : gcm) (nonce ciphertext data : List Byte) : Opened :=
  if nonce.length ≠ g.nonceSize then .panics
  else if ciphertext.length < g.tagSize then .errOpen
  else if ciphertext.length > gcmMaxPlaintext + g.tagSize then .errOpen
  else
    let tag := ciphertext.drop (ciphertext.length - g.tagSize)
    let ciphertext := ciphertext.take (ciphertext.length - g.tagSize)
    let counter := g.deriveCounter nonce
    let tagMask := g.cipher.Encrypt counter
    let expectedTag := g.auth ciphertext data tagMask
    -- subtle.ConstantTimeCompare: 1 exactly when the two slices are equal
    if expectedTag.take g.tagSize ≠ tag then .errOpen
    else .plaintext (g.counterCrypt ciphertext (gcmInc32 counter))

/-! ### The field GF(2^128), for the proofs -/

/-- Multiplication by `x`: `v` moves one bit to the right, and is reduced. -/
def mulX (v : Nat) : Nat := if v &&& 1 = 0 then v >>> 1 else v >>> 1 ^^^ gcmR

/-- The sum that `mul` accumulates in `n` steps: the multiples `x^i * y` for the bits
`i < n` of `x`, in GCM order. -/
def msum (x y : Nat) : Nat → Nat
  | 0 => 0
  | n + 1 => if x >>> (127 - n) &&& 1 = 1 then msum x y n ^^^ mulX^[n] y else msum x y n

/-- Squaring in the field. -/
def frob (a : Nat) : Nat := mul a a

/-- A linear map: the sum of the rows selected by the bits of `v` below `n`. -/
def lsum (rows : List Nat) (v : Nat) : Nat → Nat
  | 0 => 0
  | n + 1 => if v.testBit n then lsum rows v n ^^^ rows.getD n 0 else lsum rows v n

/-- Rows of a left inverse of `a ↦ a * a + a` on the elements below `2^127`. -/
def idemRows : List Nat := [
  0x0, 0x4a2ade42a1db558927495c4d4e62fc1, 0x35bd0e43ef6cf78dcef750ee63bd3171,
  0x41d77801d619af2a38dab35b297373a6, 0x36dc3b3404788e15d4cfd6f8f5447461,
  0x7adc3b3404788e15d4cfd6f8f5447467, 0x5f67891c31b7edb03c86875f90384d1c,
  0x646cca29e3d6cc8fd093e2fc4c0f4ad5, 0x51eae8be2fe60df61bf9191de1788d94,
  0x36e717e02724b8e1d1527df73b8e8241, 0x5f86cdbc744e28fe3430f49ddf071154,
  0x2561da5c536a901fe562896ae4899333, 0x99a6e1cca2f8641a0b0910804c90841,
  0x2cfbb4409945165e45d21862e0409b32, 0xd94d9da18080030c4db699e5dc0,
  0x197d9b438cafcf2f8e88275824a90133, 0x645919a4b35879f7d7a68d71cb5770d5,
  0x7348a7e5645f93d076e747a9d181ec26, 0x602105ae977251e64834e0c2dd2d5a94,
  0x2c14dbb71e26fc964f314b9433eb3eb2, 0x44eaa59bd8819a999287fa5ed58ad81,
  0x77dcb1c60e3ad5c9e2190477682adba7, 0x701c741cbd9fc8b06b94eadf79b8c426,
  0x46f806225397f491bb49eab33e4cf467, 0x79b07befedd921e9cd751ec18ebeebe7,
  0x56f3167fe31302df9eb885b869165d55, 0x6462e2cc93c28627d2d0526e0d66c2d5,
  0x1a24eaaa541c8b0f9092b01169688933, 0x4bf6a9a1f02e1f698fec4b1a74166be7,
  0x21ce3a83c07744de74dad50f0d583b32, 0x634efa836deeebf650dae654442b4894,
  0x224d20acccef41ee67fd0ac2e3641972, 0x4bf8b9d33b8f38198de17cdee54751e7,
  0x698e6217d7fa8627ef6aa903c013fa95, 0x457534e82f16f649aa2d862c91005ba7,
  0x144558bb6c9dfcd7bc4c239cf48626f3, 0x3cfddc25f2ae2df86391fd8d3387a7c0,
  0x2bd77bb364af6b3fc733d8875e039333, 0x26d44eb77ddd535ff0b1c738de72bb33,
  0x6aef57603cdbfceff55228f556d54755, 0x285aabc679b16ad7d6c2852abfdb1eb3,
  0x38e6217d7f479d8109554569546afc0, 0x79880aa666d696d9c926622882fff1e7,
  0x312705524db61730583bcf844c342240, 0x5c33b52f8947e9462158188b7248d294,
  0x3bdc8ad604b36599e246fae899f68fc1, 0x72ccff3fd3d186182e1ce9a41041041,
  0x5252e8c1d3a8e3be0d2c5beb59e57554, 0x489a0b11781e0c1196cc4fdebc394c27,
  0x1af0929920b9589f9fb368dce89d2373, 0x2f76850d57908a5e54a716d46cf0bb32,
  0x3f46b4c41d7d395874f4e33b9d331780, 0x7986f6afcfc951e9cb9188c1a5beebe7,
  0x258e6f54bc4bf6f7ef54f70e70ef2ef3, 0x55aabdbeec28a2078079924a4cd2f295,
  0x229a33517c61d3ee69739a8be16c1972, 0x49a065cd7758d5196f0e3578d383201,
  0x428019a10caacb8824c8241264b2fba6, 0x4622ba58b211bb21b69fb337b1785627,
  0x5cea6fd5b105659e2d1ccaeb5d2c7d54, 0x36e9eb0be64d6b99d3ec2e5e502bb781,
  0x5ce7c3e3d68e47f62e5390ab45fe70d4, 0x329f337db88e12004e8e904902080000,
  0x48afd66e759a994991d0e977a9aa5ba7, 0x4a2ade42a1db559927495c4d4e62fc1,
  0x41d77801d619af2838dab35b297373a6, 0x7adc3b3404788e11d4cfd6f8f5447467,
  0x646cca29e3d6cc87d093e2fc4c0f4ad5, 0x36e717e02724b8f1d1527df73b8e8241,
  0x2561da5c536a903fe562896ae4899333, 0x2cfbb4409945161e45d21862e0409b32,
  0x197d9b438cafcfaf8e88275824a90133, 0x7348a7e5645f92d076e747a9d181ec26,
  0x2c14dbb71e26fe964f314b9433eb3eb2, 0x77dcb1c60e3ad1c9e2190477682adba7,
  0x46f806225397fc91bb49eab33e4cf467, 0x56f3167fe31312df9eb885b869165d55,
  0x1a24eaaa541cab0f9092b01169688933, 0x21ce3a83c07704de74dad50f0d583b32,
  0x224d20acccefc1ee67fd0ac2e3641972, 0x698e6217d7fb8627ef6aa903c013fa95,
  0x144558bb6c9ffcd7bc4c239cf48626f3, 0x2bd77bb364ab6b3fc733d8875e039333,
  0x6aef57603cd3fceff55228f556d54755, 0x38e6217d7e479d8109554569546afc0,
  0x312705524d961730583bcf844c342240, 0x3bdc8ad604f36599e246fae899f68fc1,
  0x5252e8c1d328e3be0d2c5beb59e57554, 0x1af0929921b9589f9fb368dce89d2373,
  0x3f46b4c41f7d395874f4e33b9d331780, 0x258e6f54b84bf6f7ef54f70e70ef2ef3,
  0x229a33517461d3ee69739a8be16c1972, 0x428019a11caacb8824c8241264b2fba6,
  0x5cea6fd59105659e2d1ccaeb5d2c7d54, 0x5ce7c3e3968e47f62e5390ab45fe70d4,
  0x48afd66ef59a994991d0e977a9aa5ba7, 0x41d77800d619af2838dab35b297373a6,
  0x646cca2be3d6cc87d093e2fc4c0f4ad5, 0x2561da58536a903fe562896ae4899333,
  0x197d9b4b8cafcfaf8e88275824a90133, 0x2c14dba71e26fe964f314b9433eb3eb2,
  0x46f806025397fc91bb49eab33e4cf467, 0x1a24eaea541cab0f9092b01169688933,
  0x224d202cccefc1ee67fd0ac2e3641972, 0x144559bb6c9ffcd7bc4c239cf48626f3,
  0x6aef55603cd3fceff55228f556d54755, 0x312701524d961730583bcf844c342240,
  0x5252e0c1d328e3be0d2c5beb59e57554, 0x3f46a4c41f7d395874f4e33b9d331780,
  0x229a13517461d3ee69739a8be16c1972, 0x5cea2fd59105659e2d1ccaeb5d2c7d54,
  0x48af566ef59a994991d0e977a9aa5ba7, 0x646dca2be3d6cc87d093e2fc4c0f4ad5,
  0x197f9b4b8cafcfaf8e88275824a90133, 0x46fc06025397fc91bb49eab33e4cf467,
  0x2245202cccefc1ee67fd0ac2e3641972, 0x6aff55603cd3fceff55228f556d54755,
  0x5272e0c1d328e3be0d2c5beb59e57554, 0x22da13517461d3ee69739a8be16c1972,
  0x482f566ef59a994991d0e977a9aa5ba7, 0x187f9b4b8cafcfaf8e88275824a90133,
  0x2045202cccefc1ee67fd0ac2e3641972, 0x5672e0c1d328e3be0d2c5beb59e57554,
  0x402f566ef59a994991d0e977a9aa5ba7, 0x3045202cccefc1ee67fd0ac2e3641972,
  0x602f566ef59a994991d0e977a9aa5ba7, 0x202f566ef59a994991d0e977a9aa5ba7,
  0x10d04d25f93556e69f58ce2f8d035a94]

/-- The left inverse of `a ↦ a * a + a` on the elements below `2^127`. -/
def idemInv (v : Nat) : Nat := lsum idemRows v 128

/-- The power `a^(2^k - 1)`, by repeated squaring. -/
def pw (a : Nat) : Nat → Nat
  | 0 => 2 ^ 127
  | k + 1 => mul (frob (pw a k)) a

end cipher

/-! ## unicode/utf8, unicode, strings -/

namespace utf8

end utf8

namespace unicode

end unicode

namespace strings

end strings

/-! ## The program -/

/-- The constant `proto`. -/
def proto : GoString := goStr "1"

/-- The messages we send, `type chat struct`. -/
structure chat where
  Name : GoString
  Msg : GoString
  deriving DecidableEq

/-- The package-level variables `name`, `subj`, `key`, `keyHash`, `gcm` and `nonce`. -/
structure Globals where
  name : GoString
  subj : GoString
  key : GoString
  keyHash : List Byte
  gcm : cipher.gcm
  nonce : List Byte
  deriving DecidableEq

/-- How the set-up at the start of `main` (lines 52 to 78) ends. -/
inductive Startup where
  /-- The call `usage()`: `log.Fatalf` prints the usage line and exits. -/
  | usage
  /-- A run-time panic: index out of range. -/
  | indexOutOfRange
  /-- The call `log.Fatalf("Can't create cipher: ...")`. -/
  | cantCreateCipher
  /-- The call `log.Fatalf("Can't create gcm: ...")`. -/
  | cantCreateGcm
  /-- The variables are set; `name` is still empty. -/
  | ready (g : Globals)
  deriving DecidableEq

/-- The start of `main`, from `args := flag.Args()` to `nonce = h.Sum(nil)`. -/
def startup (args : List GoString) : Startup :=
  if args.length < 1 then .usage
  else
    match args.get? 0, args.get? 1 with
    | some a0, some a1 =>
        let key := a1
        let subj := goStr "snats." ++ proto ++ goStr "." ++ a0
        let h := sha256.New
        let h := h.Write key
        let keyHash := h.Sum
        match aes.NewCipher keyHash with
        | none => .cantCreateCipher
        | some block =>
            match cipher.NewGCMWithNonceSize block sha256.Size with
            | none => .cantCreateGcm
            | some gcm =>
                -- Generate the nonce
                let h := h.Write subj
                let h := h.Write keyHash
                .ready ⟨[], subj, key, keyHash, gcm, h.Sum⟩
    | _, _ => .indexOutOfRange

/-- The call `fmt.Scanln(&name)`, having read the name `n`. -/
def Globals.scanName (g : Globals) (n : GoString) : Globals := { g with name := n }

/-- The text returned by `decrypt` when `Open` fails. -/
def unableToDecrypt : GoString := goStr "<unable to decrypt, wrong key?>\n"

/-- The function `encrypt`; `none` when `Seal` panics. -/
def encrypt (g : Globals) (msg : GoString) : Option GoString :=
  let plaintext := msg
  match g.gcm.Seal g.nonce plaintext g.name with
  | none => none
  | some ciphertext => some (base64.EncodeToString ciphertext)

/-- The function `decrypt`; `none` when `Open` panics.  The error of `DecodeString` is
discarded, the bytes it returns are opened. -/
def decrypt (g : Globals) (msg : chat) : Option GoString :=
  let data := (base64.DecodeString msg.Msg).1
  match g.gcm.Open g.nonce data msg.Name with
  | .panics => none
  | .errOpen => some unableToDecrypt
  | .plaintext v => some v

/-- The bytes with one bit flipped: bit `i % 8` of the byte of index `i / 8`. -/
def flipBit (data : List Byte) (i : Nat) : List Byte :=
  data.set (i / 8) (toByte ((data.getD (i / 8) 0).val ^^^ 1 <<< (i % 8)))

/-! ## Theorems -/

/-! ### Bit arithmetic -/

theorem shiftLeft_or_eq_add (a b k : Nat) (h : b < 2 ^ k) : a <<< k ||| b = a * 2 ^ k + b := by
  rw [Nat.shiftLeft_eq, Nat.mul_comm, ← Nat.mul_add_lt_is_or h]

theorem and_63_eq_mod (x : Nat) : x &&& 0x3F = x % 64 :=
  Nat.and_pow_two_sub_one_eq_mod x 6

/-- The 24-bit value assembled from three bytes. -/
theorem pack3_eq (a b c : Nat) (hb : b < 256) (hc : c < 256) :
    a <<< 16 ||| b <<< 8 ||| c = a * 65536 + b * 256 + c := by
  rw [Nat.lor_assoc, shiftLeft_or_eq_add b c 8 (by omega),
    shiftLeft_or_eq_add a _ 16 (by omega)]
  omega

/-- The 24-bit value assembled from four sextets. -/
theorem pack4_eq (p q r s : Nat) (hq : q < 64) (hr : r < 64) (hs : s < 64) :
    p <<< 18 ||| q <<< 12 ||| r <<< 6 ||| s = p * 262144 + q * 4096 + r * 64 + s := by
  rw [Nat.lor_assoc, Nat.lor_assoc, shiftLeft_or_eq_add r s 6 (by omega),
    shiftLeft_or_eq_add q _ 12 (by omega), shiftLeft_or_eq_add p _ 18 (by omega)]
  omega

/-! ### encoding/base64 -/

namespace base64

theorem decodeMap_encode (i : Nat) (h : i < 64) : decodeMap (encode i) = i := by
  interval_cases i <;> decide

theorem decodeMap_encode_ne (i : Nat) (h : i < 64) : decodeMap (encode i) ≠ 0xFF := by
  rw [decodeMap_encode i h]; omega

theorem decodeMap_padChar : decodeMap padChar = 0xFF := by decide

theorem decodeFrom_alpha (j : Nat) (dbuf : List Nat) (i : Nat) (src : List Byte) (hi : i < 64)
    (hj : j ≠ 3) :
    decodeFrom j dbuf (encode i :: src) = decodeFrom (j + 1) (dbuf ++ [i]) src := by
  have h := decodeMap_encode_ne i hi
  rw [decodeFrom, if_pos h, if_neg hj, decodeMap_encode i hi]

theorem decodeFrom_alpha_last (dbuf : List Nat) (i : Nat) (src : List Byte) (hi : i < 64) :
    decodeFrom 3 dbuf (encode i :: src) =
      (quantumBytes 4 (dbuf ++ [i]) ++ (decodeFrom 0 [] src).1, (decodeFrom 0 [] src).2) := by
  have h := decodeMap_encode_ne i hi
  rw [decodeFrom, if_pos h, if_pos rfl, decodeMap_encode i hi]

/-- Four alphabet characters at the start of a quantum are decoded into three bytes. -/
theorem decodeFrom_quantum (p q r s : Nat) (hp : p < 64) (hq : q < 64) (hr : r < 64)
    (hs : s < 64) (rest : List Byte) :
    decodeFrom 0 [] (encode p :: encode q :: encode r :: encode s :: rest) =
      (quantumBytes 4 [p, q, r, s] ++ (decodeFrom 0 [] rest).1, (decodeFrom 0 [] rest).2) := by
  rw [decodeFrom_alpha 0 [] p _ hp (by decide), decodeFrom_alpha 1 _ q _ hq (by decide),
    decodeFrom_alpha 2 _ r _ hr (by decide), decodeFrom_alpha_last _ s _ hs]
  rfl

theorem decodeFrom_three_pad (dbuf : List Nat) :
    decodeFrom 3 dbuf [padChar] = (quantumBytes 3 dbuf, false) := by
  have h1 : ¬ (padChar = 10 ∨ padChar = 13) := by decide
  rw [decodeFrom, if_neg (by rw [decodeMap_padChar]; simp), if_neg h1, if_neg (by simp),
    if_neg (by decide), if_neg (by decide)]
  simp [skipNewlines]

theorem decodeFrom_two_pad (dbuf : List Nat) :
    decodeFrom 2 dbuf [padChar, padChar] = (quantumBytes 2 dbuf, false) := by
  have h1 : ¬ (padChar = 10 ∨ padChar = 13) := by decide
  rw [decodeFrom, if_neg (by rw [decodeMap_padChar]; simp), if_neg h1, if_neg (by simp),
    if_neg (by decide), if_pos rfl]
  simp [skipNewlines, h1]

/-- Three alphabet characters and one padding character end the text with two bytes. -/
theorem decodeFrom_pad1 (p q r : Nat) (hp : p < 64) (hq : q < 64) (hr : r < 64) :
    decodeFrom 0 [] [encode p, encode q, encode r, padChar] =
      (quantumBytes 3 [p, q, r], false) := by
  rw [decodeFrom_alpha 0 [] p _ hp (by decide), decodeFrom_alpha 1 _ q _ hq (by decide),
    decodeFrom_alpha 2 _ r _ hr (by decide), decodeFrom_three_pad]
  rfl

/-- Two alphabet characters and two padding characters end the text with one byte. -/
theorem decodeFrom_pad2 (p q : Nat) (hp : p < 64) (hq : q < 64) :
    decodeFrom 0 [] [encode p, encode q, padChar, padChar] = (quantumBytes 2 [p, q], false) := by
  rw [decodeFrom_alpha 0 [] p _ hp (by decide), decodeFrom_alpha 1 _ q _ hq (by decide),
    decodeFrom_two_pad]
  rfl

theorem quantumBytes_four (a b c : Byte) :
    quantumBytes 4
      [(a.val <<< 16 ||| b.val <<< 8 ||| c.val) >>> 18 &&& 0x3F,
       (a.val <<< 16 ||| b.val <<< 8 ||| c.val) >>> 12 &&& 0x3F,
       (a.val <<< 16 ||| b.val <<< 8 ||| c.val) >>> 6 &&& 0x3F,
       (a.val <<< 16 ||| b.val <<< 8 ||| c.val) &&& 0x3F] = [a, b, c] := by
  have ha := a.isLt
  have hb := b.isLt
  have hc := c.isLt
  simp only [quantumBytes, List.getD_cons_zero, List.getD_cons_succ, and_63_eq_mod,
    pack3_eq _ _ _ hb hc, Nat.shiftRight_eq_div_pow]
  rw [pack4_eq _ _ _ _ (Nat.mod_lt _ (by decide)) (Nat.mod_lt _ (by decide))
    (Nat.mod_lt _ (by decide))]
  simp only [toByte, Nat.add_one_sub_one, List.take_succ_cons, List.take_zero,
    List.cons.injEq, and_true]
  refine ⟨Fin.ext ?_, Fin.ext ?_, Fin.ext ?_⟩ <;> simp only [] <;> omega

theorem quantumBytes_three (a b : Byte) :
    quantumBytes 3
      [(a.val <<< 16 ||| b.val <<< 8) >>> 18 &&& 0x3F,
       (a.val <<< 16 ||| b.val <<< 8) >>> 12 &&& 0x3F,
       (a.val <<< 16 ||| b.val <<< 8) >>> 6 &&& 0x3F] = [a, b] := by
  have ha := a.isLt
  have hb := b.isLt
  have h0 : a.val <<< 16 ||| b.val <<< 8 = a.val * 65536 + b.val * 256 := by
    have h := pack3_eq a.val b.val 0 hb (by decide)
    simpa using h
  have h4 := pack4_eq ((a.val * 65536 + b.val * 256) / 2 ^ 18 % 64)
    ((a.val * 65536 + b.val * 256) / 2 ^ 12 % 64) ((a.val * 65536 + b.val * 256) / 2 ^ 6 % 64) 0
    (Nat.mod_lt _ (by decide)) (Nat.mod_lt _ (by decide)) (by decide)
  simp only [quantumBytes, List.getD_cons_zero, List.getD_cons_succ, and_63_eq_mod, h0,
    Nat.shiftRight_eq_div_pow, List.getD_nil]
  rw [h4]
  simp only [toByte, List.take_succ_cons, List.take_zero, List.cons.injEq, and_true]
  refine ⟨Fin.ext ?_, Fin.ext ?_⟩ <;> simp only [] <;> omega

theorem quantumBytes_two (a : Byte) :
    quantumBytes 2 [(a.val <<< 16) >>> 18 &&& 0x3F, (a.val <<< 16) >>> 12 &&& 0x3F] = [a] := by
  have ha := a.isLt
  have h0 : a.val <<< 16 = a.val * 65536 := by rw [Nat.shiftLeft_eq]
  have h4 := pack4_eq ((a.val * 65536) / 2 ^ 18 % 64) ((a.val * 65536) / 2 ^ 12 % 64) 0 0
    (Nat.mod_lt _ (by decide)) (by decide) (by decide)
  simp only [quantumBytes, List.getD_cons_zero, List.getD_cons_succ, and_63_eq_mod, h0,
    Nat.shiftRight_eq_div_pow, List.getD_nil]
  rw [h4]
  simp only [toByte, List.take_succ_cons, List.take_zero, List.cons.injEq, and_true]
  refine Fin.ext ?_
  simp only []
  omega

theorem and_63_lt (x : Nat) : x &&& 0x3F < 64 := by
  rw [and_63_eq_mod]; exact Nat.mod_lt _ (by decide)

/-- Decoding the text produced by the encoder, from the start of a quantum. -/
theorem decodeFrom_EncodeToString (B : List Byte) :
    decodeFrom 0 [] (EncodeToString B) = (B, false) := by
  induction B using EncodeToString.induct with
  | case1 => rfl
  | case2 a =>
      simp only [EncodeToString]
      rw [decodeFrom_pad2 _ _ (and_63_lt _) (and_63_lt _), quantumBytes_two]
  | case3 a b =>
      simp only [EncodeToString]
      rw [decodeFrom_pad1 _ _ _ (and_63_lt _) (and_63_lt _) (and_63_lt _), quantumBytes_three]
  | case4 a b c rest ih =>
      simp only [EncodeToString]
      rw [decodeFrom_quantum _ _ _ _ (and_63_lt _) (and_63_lt _) (and_63_lt _) (and_63_lt _),
        quantumBytes_four, ih]
      rfl

end base64



/-! ### crypto/sha256, crypto/aes -/

theorem sha256_checkSum_length (data : List Byte) : (sha256.checkSum data).length = 32 := by
  simp [sha256.checkSum, sha256.putUint32]

theorem sha256_Sum_length (d : sha256.digest) : d.Sum.length = 32 :=
  sha256_checkSum_length d.written

theorem aes_NewCipher_of_length (key : List Byte) (h : key.length = 32) :
    aes.NewCipher key = some ⟨aes.expandKeyGo key⟩ := by
  simp [aes.NewCipher, h]

theorem aes_Encrypt_length (c : aes.aesCipher) (src : List Byte) : (c.Encrypt src).length = 16 := by
  simp [aes.aesCipher.Encrypt]

/-! ### crypto/cipher -/

namespace cipher

theorem toByte_val (a : Byte) : toByte a.val = a := by
  apply Fin.ext
  simp only [toByte]
  exact Nat.mod_eq_of_lt a.isLt

theorem xor_byte_cancel (a b : Byte) : toByte ((toByte (a.val ^^^ b.val)).val ^^^ b.val) = a := by
  have h : a.val ^^^ b.val < 2 ^ 8 := Nat.xor_lt_two_pow a.isLt b.isLt
  have h2 : (toByte (a.val ^^^ b.val)).val = a.val ^^^ b.val := by
    simp only [toByte]
    exact Nat.mod_eq_of_lt h
  rw [h2, Nat.xor_cancel_right, toByte_val]

theorem xorBytes_length (x y : List Byte) : (xorBytes x y).length = min x.length y.length := by
  simp [xorBytes]

/-- Masking twice with the same key stream gives the input back. -/
theorem xorBytes_xorBytes (x k : List Byte) (h : x.length ≤ k.length) :
    xorBytes (xorBytes x k) k = x := by
  induction x generalizing k with
  | nil => simp [xorBytes]
  | cons a x ih =>
      cases k with
      | nil => simp at h
      | cons b k =>
          have h2 : x.length ≤ k.length := by simpa using h
          have ih2 := ih k h2
          simp only [xorBytes, List.zipWith_cons_cons] at ih2 ⊢
          rw [xor_byte_cancel, ih2]

theorem keystream_length (g : gcm) (counter : List Byte) (n : Nat) :
    (g.keystream counter n).length = 16 * n := by
  induction n generalizing counter with
  | zero => simp [gcm.keystream]
  | succ n ih =>
      simp only [gcm.keystream, List.length_append, aes_Encrypt_length, ih]
      omega

theorem counterCrypt_length (g : gcm) (inp counter : List Byte) :
    (g.counterCrypt inp counter).length = inp.length := by
  simp only [gcm.counterCrypt, xorBytes_length, keystream_length]
  omega

/-- The method `counterCrypt` is its own inverse. -/
theorem counterCrypt_counterCrypt (g : gcm) (inp counter : List Byte) :
    g.counterCrypt (g.counterCrypt inp counter) counter = inp := by
  have hl := counterCrypt_length g inp counter
  rw [gcm.counterCrypt, hl]
  rw [gcm.counterCrypt]
  apply xorBytes_xorBytes
  rw [keystream_length]
  omega

theorem blockBytes_length (x : Nat) : (blockBytes x).length = 16 := by
  simp [blockBytes]

theorem auth_length (g : gcm) (ciphertext data tagMask : List Byte) (h : tagMask.length = 16) :
    (g.auth ciphertext data tagMask).length = 16 := by
  simp [gcm.auth, xorBytes_length, blockBytes_length, h]

/-- What `Seal` returns when it does not panic. -/
theorem Seal_eq_some (g : gcm) (nonce plaintext data : List Byte)
    (hn : nonce.length = g.nonceSize) (hp : plaintext.length ≤ gcmMaxPlaintext) :
    g.Seal nonce plaintext data =
      some (g.counterCrypt plaintext (gcmInc32 (g.deriveCounter nonce)) ++
        (g.auth (g.counterCrypt plaintext (gcmInc32 (g.deriveCounter nonce))) data
          (g.cipher.Encrypt (g.deriveCounter nonce))).take g.tagSize) := by
  have hp2 : ¬ plaintext.length > gcmMaxPlaintext := by omega
  simp [gcm.Seal, hn, hp2]

/-- The call `Seal` panics exactly on a nonce of the wrong length or an oversized
plaintext. -/
theorem Seal_eq_none_iff (g : gcm) (nonce plaintext data : List Byte) :
    g.Seal nonce plaintext data = none ↔
      nonce.length ≠ g.nonceSize ∨ plaintext.length > gcmMaxPlaintext := by
  unfold gcm.Seal
  split
  · simp [*]
  · split <;> simp [*]

/-- Opening what was sealed, under the same nonce and additional data, returns the
plaintext. -/
theorem Open_Seal (g : gcm) (nonce plaintext data sealed : List Byte) (ht : g.tagSize = 16)
    (h : g.Seal nonce plaintext data = some sealed) :
    g.Open nonce sealed data = .plaintext plaintext := by
  have hn : nonce.length = g.nonceSize := by
    by_contra hc
    have := (Seal_eq_none_iff g nonce plaintext data).2 (Or.inl hc)
    rw [this] at h
    exact Option.noConfusion h
  have hp : plaintext.length ≤ gcmMaxPlaintext := by
    by_contra hc
    have := (Seal_eq_none_iff g nonce plaintext data).2 (Or.inr (by omega))
    rw [this] at h
    exact Option.noConfusion h
  rw [Seal_eq_some g nonce plaintext data hn hp] at h
  injection h with h
  subst h
  set counter := g.deriveCounter nonce with hcounter
  set out := g.counterCrypt plaintext (gcmInc32 counter) with hout
  set tag := g.auth out data (g.cipher.Encrypt counter) with htag
  have hlo : out.length = plaintext.length := counterCrypt_length _ _ _
  have hlt : tag.length = 16 := auth_length _ _ _ _ (aes_Encrypt_length _ _)
  have htake : tag.take g.tagSize = tag := by
    rw [ht]; exact List.take_of_length_le (by omega)
  rw [htake]
  have hlen : (out ++ tag).length = out.length + 16 := by simp [hlt]
  have hdrop : (out ++ tag).drop ((out ++ tag).length - g.tagSize) = tag := by
    rw [hlen, ht, Nat.add_sub_cancel, List.drop_left]
  have htk : (out ++ tag).take ((out ++ tag).length - g.tagSize) = out := by
    rw [hlen, ht, Nat.add_sub_cancel, List.take_left]
  unfold gcm.Open
  rw [if_neg (by simpa using hn), if_neg (by rw [hlen, ht]; omega),
    if_neg (by rw [hlen, ht, hlo]; omega)]
  simp only [hdrop, htk]
  rw [← hcounter, ← htag, htake, if_neg (by simp), hout, counterCrypt_counterCrypt]

/-- Opening a body followed by a 16-byte tag: the plaintext when the tag is the one
computed from the body and the additional data, `errOpen` otherwise. -/
theorem Open_append (g : gcm) (nonce body tag data : List Byte) (ht : g.tagSize = 16)
    (hn : nonce.length = g.nonceSize) (hb : body.length ≤ gcmMaxPlaintext)
    (hl : tag.length = 16) :
    g.Open nonce (body ++ tag) data =
      if g.auth body data (g.cipher.Encrypt (g.deriveCounter nonce)) = tag then
        .plaintext (g.counterCrypt body (gcmInc32 (g.deriveCounter nonce)))
      else .errOpen := by
  have hlen : (body ++ tag).length = body.length + 16 := by simp [hl]
  have hdrop : (body ++ tag).drop ((body ++ tag).length - g.tagSize) = tag := by
    rw [hlen, ht, Nat.add_sub_cancel, List.drop_left]
  have htk : (body ++ tag).take ((body ++ tag).length - g.tagSize) = body := by
    rw [hlen, ht, Nat.add_sub_cancel, List.take_left]
  have hlt : (g.auth body data (g.cipher.Encrypt (g.deriveCounter nonce))).length = 16 :=
    auth_length _ _ _ _ (aes_Encrypt_length _ _)
  have htake : (g.auth body data (g.cipher.Encrypt (g.deriveCounter nonce))).take g.tagSize
      = g.auth body data (g.cipher.Encrypt (g.deriveCounter nonce)) := by
    rw [ht]; exact List.take_of_length_le (by omega)
  unfold gcm.Open
  rw [if_neg (by simpa using hn), if_neg (by rw [hlen, ht]; omega),
    if_neg (by rw [hlen, ht]; omega)]
  simp only [hdrop, htk, htake]
  by_cases h : g.auth body data (g.cipher.Encrypt (g.deriveCounter nonce)) = tag
  · rw [if_neg (by simpa using h), if_pos h]
  · rw [if_pos h, if_neg h]

/-- Too short a ciphertext is rejected. -/
theorem Open_short (g : gcm) (nonce ciphertext data : List Byte)
    (hn : nonce.length = g.nonceSize) (hl : ciphertext.length < g.tagSize) :
    g.Open nonce ciphertext data = .errOpen := by
  unfold gcm.Open
  rw [if_neg (by simpa using hn), if_pos hl]

/-! #### The field GF(2^128) -/

theorem and_one_cases (a : Nat) : a &&& 1 = 0 ∨ a &&& 1 = 1 := by
  rw [Nat.and_one_is_mod]; omega

theorem xor_and_one (a b : Nat) : (a ^^^ b) &&& 1 = (a &&& 1) ^^^ (b &&& 1) :=
  Nat.and_xor_distrib_right

theorem shiftRight_xor (a b k : Nat) : (a ^^^ b) >>> k = a >>> k ^^^ b >>> k := by
  apply Nat.eq_of_testBit_eq
  intro i
  simp only [Nat.testBit_shiftRight, Nat.testBit_xor]

theorem xor_xor_cancel (p q r : Nat) : (p ^^^ r) ^^^ (q ^^^ r) = p ^^^ q := by
  apply Nat.eq_of_testBit_eq
  intro i
  simp only [Nat.testBit_xor]
  cases p.testBit i <;> cases q.testBit i <;> cases r.testBit i <;> rfl

theorem mulX_xor (a b : Nat) : mulX (a ^^^ b) = mulX a ^^^ mulX b := by
  unfold mulX
  rw [xor_and_one, shiftRight_xor]
  rcases and_one_cases a with ha | ha <;> rcases and_one_cases b with hb | hb <;>
    simp only [ha, hb]
  · simp
  · simp only [Nat.zero_xor, if_neg (show ¬ (1 = 0) by decide), if_true, Nat.xor_assoc]
  · simp only [Nat.xor_zero, if_neg (show ¬ (1 = 0) by decide), if_true]
    rw [Nat.xor_assoc, Nat.xor_comm (b >>> 1) gcmR, ← Nat.xor_assoc]
  · simp only [Nat.xor_self, if_neg (show ¬ (1 = 0) by decide), if_true, xor_xor_cancel]

theorem mulX_zero : mulX 0 = 0 := by decide

theorem mulX_lt (v : Nat) (h : v < 2 ^ 128) : mulX v < 2 ^ 128 := by
  unfold mulX
  have h1 : v >>> 1 < 2 ^ 128 := by
    rw [Nat.shiftRight_eq_div_pow]; omega
  split_ifs
  · exact h1
  · exact Nat.xor_lt_two_pow h1 (by decide)

theorem iterate_mulX_xor (n a b : Nat) : mulX^[n] (a ^^^ b) = mulX^[n] a ^^^ mulX^[n] b := by
  induction n generalizing a b with
  | zero => rfl
  | succ n ih => simp only [Function.iterate_succ, Function.comp, mulX_xor, ih]

theorem iterate_mulX_zero (n : Nat) : mulX^[n] 0 = 0 := by
  induction n with
  | zero => rfl
  | succ n ih => simp only [Function.iterate_succ, Function.comp, mulX_zero, ih]

theorem iterate_mulX_lt (n v : Nat) (h : v < 2 ^ 128) : mulX^[n] v < 2 ^ 128 := by
  induction n generalizing v with
  | zero => exact h
  | succ n ih =>
    simp only [Function.iterate_succ, Function.comp]
    exact ih _ (mulX_lt v h)

theorem xor_shuffle (a b c d : Nat) : (a ^^^ b) ^^^ (c ^^^ d) = (a ^^^ c) ^^^ (b ^^^ d) := by
  ac_rfl

theorem foldl_mulStep (x y n : Nat) :
    (List.range n).foldl (mulStep x) (0, y) = (msum x y n, mulX^[n] y) := by
  induction n with
  | zero => rfl
  | succ n ih =>
    rw [List.range_succ, List.foldl_append, ih]
    simp only [List.foldl_cons, List.foldl_nil, mulStep, msum, Function.iterate_succ_apply']
    rfl

theorem mul_eq_msum (x y : Nat) : mul x y = msum x y 128 := by
  unfold mul
  rw [foldl_mulStep]

theorem msum_xor_right (x y z n : Nat) : msum x (y ^^^ z) n = msum x y n ^^^ msum x z n := by
  induction n with
  | zero => simp [msum]
  | succ n ih =>
    simp only [msum, ih, iterate_mulX_xor]
    split_ifs
    · exact xor_shuffle _ _ _ _
    · rfl

theorem msum_xor_left (x w y n : Nat) : msum (x ^^^ w) y n = msum x y n ^^^ msum w y n := by
  induction n with
  | zero => simp [msum]
  | succ n ih =>
    simp only [msum, ih, shiftRight_xor, xor_and_one]
    rcases and_one_cases (x >>> (127 - n)) with ha | ha <;>
      rcases and_one_cases (w >>> (127 - n)) with hb | hb <;> simp only [ha, hb]
    · simp
    · simp only [Nat.zero_xor, if_neg (show ¬ (0 = 1) by decide), if_true, Nat.xor_assoc]
    · simp only [Nat.xor_zero, if_neg (show ¬ (0 = 1) by decide), if_true]
      ac_rfl
    · simp only [Nat.xor_self, if_neg (show ¬ (0 = 1) by decide), if_true, xor_xor_cancel]

theorem msum_lt (x y n : Nat) (h : y < 2 ^ 128) : msum x y n < 2 ^ 128 := by
  induction n with
  | zero => simp [msum]
  | succ n ih =>
    simp only [msum]
    split_ifs
    · exact Nat.xor_lt_two_pow ih (iterate_mulX_lt n y h)
    · exact ih

theorem msum_mulX (x y n : Nat) : msum x (mulX y) n = mulX (msum x y n) := by
  induction n with
  | zero => exact mulX_zero.symm
  | succ n ih =>
    simp only [msum, ih, ← Function.iterate_succ_apply, Function.iterate_succ_apply']
    split_ifs
    · rw [mulX_xor]
    · rfl

theorem mul_xor_left (x w y : Nat) : mul (x ^^^ w) y = mul x y ^^^ mul w y := by
  simp only [mul_eq_msum, msum_xor_left]

theorem mul_xor_right (x y z : Nat) : mul x (y ^^^ z) = mul x y ^^^ mul x z := by
  simp only [mul_eq_msum, msum_xor_right]

theorem gf_mul_lt (x y : Nat) (h : y < 2 ^ 128) : mul x y < 2 ^ 128 := by
  rw [mul_eq_msum]; exact msum_lt x y 128 h

theorem mul_mulX_right (x y : Nat) : mul x (mulX y) = mulX (mul x y) := by
  simp only [mul_eq_msum, msum_mulX]

theorem mul_zero_left (y : Nat) : mul 0 y = 0 := by
  have := mul_xor_left 0 0 y
  simp only [Nat.xor_self] at this
  exact this

theorem mul_zero_right (x : Nat) : mul x 0 = 0 := by
  have := mul_xor_right x 0 0
  simp only [Nat.xor_self] at this
  exact this

theorem bit_iff (x k : Nat) : x >>> k &&& 1 = 1 ↔ x.testBit k = true := by
  unfold Nat.testBit
  rw [Nat.and_comm]
  rcases and_one_cases (x >>> k) with h | h <;> rw [Nat.and_comm] at h <;> simp [h]

theorem split_top_bit (x n : Nat) (h : x < 2 ^ (n + 1)) :
    x = x % 2 ^ n ^^^ (if x.testBit n then 2 ^ n else 0) := by
  apply Nat.eq_of_testBit_eq
  intro i
  rw [Nat.testBit_xor, Nat.testBit_mod_two_pow]
  rcases Nat.lt_trichotomy i n with hi | hi | hi
  · have h1 : (if x.testBit n then 2 ^ n else 0).testBit i = false := by
      split_ifs
      · exact Nat.testBit_two_pow_of_ne (by omega)
      · exact Nat.zero_testBit i
    simp [h1, hi]
  · subst hi
    by_cases hb : x.testBit i
    · simp [hb]
    · simp [hb]
  · have h1 : (if x.testBit n then 2 ^ n else 0).testBit i = false := by
      split_ifs
      · exact Nat.testBit_two_pow_of_ne (by omega)
      · exact Nat.zero_testBit i
    have h2 : x.testBit i = false :=
      Nat.testBit_lt_two_pow (lt_of_lt_of_le h (Nat.pow_le_pow_right (by decide) hi))
    simp [h1, h2, Nat.not_lt.2 (Nat.le_of_lt hi)]

/-- Two maps that are additive on the field and agree on the first `n` basis elements
agree below `2^n`. -/
theorem ext_basis_le (f g : Nat → Nat)
    (hf : ∀ a b, a < 2 ^ 128 → b < 2 ^ 128 → f (a ^^^ b) = f a ^^^ f b)
    (hg : ∀ a b, a < 2 ^ 128 → b < 2 ^ 128 → g (a ^^^ b) = g a ^^^ g b)
    (n : Nat) (hn : n ≤ 128) (h : ∀ i, i < n → f (2 ^ i) = g (2 ^ i)) (x : Nat)
    (hx : x < 2 ^ n) : f x = g x := by
  have hf0 : f 0 = 0 := by
    have := hf 0 0 (by decide) (by decide)
    simp only [Nat.xor_self] at this
    have h2 : f 0 ^^^ f 0 = 0 := Nat.xor_self _
    omega
  have hg0 : g 0 = 0 := by
    have := hg 0 0 (by decide) (by decide)
    simp only [Nat.xor_self] at this
    have h2 : g 0 ^^^ g 0 = 0 := Nat.xor_self _
    omega
  induction n generalizing x with
  | zero =>
    have : x = 0 := by simpa using hx
    rw [this, hf0, hg0]
  | succ n ih =>
    have hlow : x % 2 ^ n < 2 ^ n := Nat.mod_lt _ (Nat.two_pow_pos n)
    have hle : 2 ^ n < 2 ^ 128 := Nat.pow_lt_pow_right (by decide) (by omega)
    have hlow2 : x % 2 ^ n < 2 ^ 128 := lt_trans hlow hle
    have ih2 := ih (by omega) (fun i hi => h i (by omega)) _ hlow
    rw [split_top_bit x n hx]
    split_ifs
    · rw [hf _ _ hlow2 hle, hg _ _ hlow2 hle, ih2, h n (by omega)]
    · rw [Nat.xor_zero, ih2]

/-- Two maps that are additive on the field and agree on the 128 basis elements agree on
the field. -/
theorem ext_basis (f g : Nat → Nat)
    (hf : ∀ a b, a < 2 ^ 128 → b < 2 ^ 128 → f (a ^^^ b) = f a ^^^ f b)
    (hg : ∀ a b, a < 2 ^ 128 → b < 2 ^ 128 → g (a ^^^ b) = g a ^^^ g b)
    (h : ∀ i, i < 128 → f (2 ^ i) = g (2 ^ i)) (x : Nat) (hx : x < 2 ^ 128) : f x = g x :=
  ext_basis_le f g hf hg 128 (le_refl _) h x hx

theorem msum_shiftRight (a y n : Nat) (ha : a < 2 ^ 128) (hn : n ≤ 127) :
    msum (a >>> 1) y (n + 1) = mulX (msum a y n) := by
  induction n with
  | zero =>
    have h0 : ¬ ((a >>> 1) >>> (127 - 0) &&& 1 = 1) := by
      rw [bit_iff, Nat.testBit_shiftRight]
      simp [Nat.testBit_lt_two_pow ha]
    simp only [msum, if_neg h0, mulX_zero]
  | succ n ih =>
    have hb : ((a >>> 1) >>> (127 - (n + 1)) &&& 1 = 1) ↔ (a >>> (127 - n) &&& 1 = 1) := by
      rw [bit_iff, bit_iff, Nat.testBit_shiftRight]
      rw [show 1 + (127 - (n + 1)) = 127 - n by omega]
    rw [msum, ih (by omega)]
    conv_rhs => rw [msum]
    by_cases hc : a >>> (127 - n) &&& 1 = 1
    · rw [if_pos (hb.2 hc), if_pos hc, mulX_xor, Function.iterate_succ_apply']
    · rw [if_neg (fun h => hc (hb.1 h)), if_neg hc]

/-- The polynomial of the reduction: `x^128 = 1 + x + x^2 + x^7`, on the basis. -/
theorem mulX_128_basis : (List.range 128).all (fun j =>
    mulX^[128] (2 ^ j) == 2 ^ j ^^^ mulX (2 ^ j) ^^^ mulX^[2] (2 ^ j) ^^^ mulX^[7] (2 ^ j)) =
    true := by
  decide!

theorem msum_two_pow (i y n : Nat) (hi : i ≤ 127) (hn : n ≤ 128) :
    msum (2 ^ (127 - i)) y n = if i < n then mulX^[i] y else 0 := by
  induction n with
  | zero => simp [msum]
  | succ n ih =>
    rw [msum, ih (by omega)]
    by_cases h1 : i = n
    · subst h1
      have hb : 2 ^ (127 - i) >>> (127 - i) &&& 1 = 1 := by
        rw [bit_iff, Nat.testBit_two_pow_self]
      rw [if_pos hb, if_neg (by omega), if_pos (by omega), Nat.zero_xor]
    · have hb : ¬ (2 ^ (127 - i) >>> (127 - n) &&& 1 = 1) := by
        rw [bit_iff, Nat.testBit_two_pow_of_ne (by omega)]
        exact Bool.false_ne_true
      rw [if_neg hb]
      by_cases h3 : i < n
      · rw [if_pos h3, if_pos (by omega)]
      · rw [if_neg h3, if_neg (by omega)]

/-- A basis element multiplies as a power of `x`. -/
theorem mul_two_pow (i y : Nat) (hi : i ≤ 127) : mul (2 ^ (127 - i)) y = mulX^[i] y := by
  rw [mul_eq_msum, msum_two_pow i y 128 hi (le_refl _), if_pos (by omega)]

theorem mul_gcmR (y : Nat) :
    mul gcmR y = y ^^^ mulX y ^^^ mulX^[2] y ^^^ mulX^[7] y := by
  have h : gcmR = 2 ^ (127 - 0) ^^^ 2 ^ (127 - 1) ^^^ 2 ^ (127 - 2) ^^^ 2 ^ (127 - 7) := by
    decide
  rw [h, mul_xor_left, mul_xor_left, mul_xor_left, mul_two_pow 0 y (by omega),
    mul_two_pow 1 y (by omega), mul_two_pow 2 y (by omega), mul_two_pow 7 y (by omega)]
  rfl

theorem mulX_128 (y : Nat) (hy : y < 2 ^ 128) : mulX^[128] y = mul gcmR y := by
  apply ext_basis (fun y => mulX^[128] y) (fun y => mul gcmR y)
    (fun a b _ _ => iterate_mulX_xor 128 a b) (fun a b _ _ => mul_xor_right gcmR a b) _ y hy
  intro i hi
  have := List.all_eq_true.1 mulX_128_basis i (List.mem_range.2 hi)
  simp only [beq_iff_eq] at this
  show mulX^[128] (2 ^ i) = mul gcmR (2 ^ i)
  rw [this, mul_gcmR]

/-- Multiplying the left factor by `x` multiplies the product by `x`. -/
theorem mul_mulX_left (a y : Nat) (ha : a < 2 ^ 128) (hy : y < 2 ^ 128) :
    mul (mulX a) y = mulX (mul a y) := by
  have h1 : mul (a >>> 1) y = mulX (msum a y 127) := by
    rw [mul_eq_msum]
    exact msum_shiftRight a y 127 ha (le_refl _)
  have h2 : mul a y = if a &&& 1 = 1 then msum a y 127 ^^^ mulX^[127] y else msum a y 127 := by
    rw [mul_eq_msum]
    rfl
  rcases and_one_cases a with h | h
  · have hm : mulX a = a >>> 1 := by
      unfold mulX; rw [if_pos h]
    rw [hm, h1, h2, if_neg (by omega)]
  · have hm : mulX a = a >>> 1 ^^^ gcmR := by
      unfold mulX; rw [if_neg (by omega)]
    have h4 : mulX^[128] y = mulX (mulX^[127] y) := Function.iterate_succ_apply' mulX 127 y
    rw [hm, mul_xor_left, h1, h2, if_pos h, ← mulX_128 y hy, mulX_xor, h4]

theorem mulX_two_pow (k : Nat) : mulX (2 ^ (k + 1)) = 2 ^ k := by
  have h : 2 ^ (k + 1) &&& 1 = 0 := by
    rw [Nat.and_one_is_mod, Nat.pow_succ]; omega
  unfold mulX
  rw [if_pos h, Nat.shiftRight_eq_div_pow, Nat.pow_succ]
  omega

theorem iterate_mulX_one (i : Nat) (hi : i ≤ 127) : mulX^[i] (2 ^ 127) = 2 ^ (127 - i) := by
  induction i with
  | zero => rfl
  | succ i ih =>
    rw [Function.iterate_succ_apply', ih (by omega),
      show 127 - i = (127 - (i + 1)) + 1 by omega, mulX_two_pow]

theorem mul_iterate_left (i a y : Nat) (ha : a < 2 ^ 128) (hy : y < 2 ^ 128) :
    mul (mulX^[i] a) y = mulX^[i] (mul a y) := by
  induction i with
  | zero => rfl
  | succ i ih =>
    rw [Function.iterate_succ_apply', Function.iterate_succ_apply',
      mul_mulX_left _ _ (iterate_mulX_lt i a ha) hy, ih]

theorem mul_iterate_right (i a y : Nat) : mul a (mulX^[i] y) = mulX^[i] (mul a y) := by
  induction i with
  | zero => rfl
  | succ i ih =>
    rw [Function.iterate_succ_apply', Function.iterate_succ_apply', mul_mulX_right, ih]

/-- The unit of the field is the bit of weight `2^127`. -/
theorem gf_one_mul (y : Nat) : mul (2 ^ 127) y = y :=
  mul_two_pow 0 y (by omega)

theorem gf_mul_one (x : Nat) (hx : x < 2 ^ 128) : mul x (2 ^ 127) = x := by
  apply ext_basis (fun x => mul x (2 ^ 127)) (fun x => x)
    (fun a b _ _ => mul_xor_left a b _) (fun _ _ _ _ => rfl) _ x hx
  intro k hk
  show mul (2 ^ k) (2 ^ 127) = 2 ^ k
  have h := mul_two_pow (127 - k) (2 ^ 127) (by omega)
  rw [show 127 - (127 - k) = k by omega] at h
  rw [h, iterate_mulX_one _ (by omega), show 127 - (127 - k) = k by omega]

theorem gf_mul_comm (x y : Nat) (hx : x < 2 ^ 128) (hy : y < 2 ^ 128) : mul x y = mul y x := by
  apply ext_basis (fun x => mul x y) (fun x => mul y x)
    (fun a b _ _ => mul_xor_left a b _) (fun a b _ _ => mul_xor_right _ a b) _ x hx
  intro k hk
  show mul (2 ^ k) y = mul y (2 ^ k)
  have h := mul_two_pow (127 - k) y (by omega)
  rw [show 127 - (127 - k) = k by omega] at h
  have h2 := iterate_mulX_one (127 - k) (by omega)
  rw [show 127 - (127 - k) = k by omega] at h2
  rw [h, ← h2, mul_iterate_right, gf_mul_one y hy]

theorem gf_mul_assoc (x y z : Nat) (hx : x < 2 ^ 128) (hy : y < 2 ^ 128) (hz : z < 2 ^ 128) :
    mul (mul x y) z = mul x (mul y z) := by
  apply ext_basis (fun x => mul (mul x y) z) (fun x => mul x (mul y z)) _
    (fun a b _ _ => mul_xor_left a b _) _ x hx
  · intro a b _ _
    show mul (mul (a ^^^ b) y) z = mul (mul a y) z ^^^ mul (mul b y) z
    rw [mul_xor_left, mul_xor_left]
  · intro k hk
    show mul (mul (2 ^ k) y) z = mul (2 ^ k) (mul y z)
    have h := fun w => mul_two_pow (127 - k) w (by omega)
    rw [show 127 - (127 - k) = k by omega] at h
    rw [h, h, mul_iterate_left _ _ _ hy hz]

theorem frob_lt (a : Nat) (ha : a < 2 ^ 128) : frob a < 2 ^ 128 := gf_mul_lt a a ha

theorem frob_xor (a b : Nat) (ha : a < 2 ^ 128) (hb : b < 2 ^ 128) :
    frob (a ^^^ b) = frob a ^^^ frob b := by
  unfold frob
  rw [mul_xor_left, mul_xor_right, mul_xor_right, gf_mul_comm b a hb ha]
  rw [Nat.xor_assoc, ← Nat.xor_assoc (mul a b), Nat.xor_self, Nat.zero_xor]

theorem frob_mul (a b : Nat) (ha : a < 2 ^ 128) (hb : b < 2 ^ 128) :
    frob (mul a b) = mul (frob a) (frob b) := by
  unfold frob
  have hab := gf_mul_lt a b hb
  rw [gf_mul_assoc a b (mul a b) ha hb hab, ← gf_mul_assoc b a b hb ha hb, gf_mul_comm b a hb ha,
    gf_mul_assoc a b b ha hb hb, ← gf_mul_assoc a a (mul b b) ha ha (gf_mul_lt b b hb)]

theorem iterate_frob_lt (k a : Nat) (ha : a < 2 ^ 128) : frob^[k] a < 2 ^ 128 := by
  induction k with
  | zero => exact ha
  | succ k ih =>
    rw [Function.iterate_succ_apply']
    exact frob_lt _ ih

theorem iterate_frob_xor (k a b : Nat) (ha : a < 2 ^ 128) (hb : b < 2 ^ 128) :
    frob^[k] (a ^^^ b) = frob^[k] a ^^^ frob^[k] b := by
  induction k with
  | zero => rfl
  | succ k ih =>
    rw [Function.iterate_succ_apply', Function.iterate_succ_apply',
      Function.iterate_succ_apply', ih,
      frob_xor _ _ (iterate_frob_lt k a ha) (iterate_frob_lt k b hb)]

theorem iterate_frob_mul (k a b : Nat) (ha : a < 2 ^ 128) (hb : b < 2 ^ 128) :
    frob^[k] (mul a b) = mul (frob^[k] a) (frob^[k] b) := by
  induction k with
  | zero => rfl
  | succ k ih =>
    rw [Function.iterate_succ_apply', Function.iterate_succ_apply',
      Function.iterate_succ_apply', ih,
      frob_mul _ _ (iterate_frob_lt k a ha) (iterate_frob_lt k b hb)]

set_option maxRecDepth 1000000 in
/-- The Frobenius map has period 128 on the generator `x`. -/
theorem iterate_frob_x : frob^[128] (2 ^ 126) = 2 ^ 126 := by
  decide!

theorem iterate_frob_one (k : Nat) : frob^[k] (2 ^ 127) = 2 ^ 127 := by
  induction k with
  | zero => rfl
  | succ k ih =>
    rw [Function.iterate_succ_apply', ih]
    exact gf_one_mul _

theorem mulX_eq_mul (y : Nat) : mulX y = mul (2 ^ 126) y :=
  (mul_two_pow 1 y (by omega)).symm

/-- Every element of the field is fixed by 128 squarings. -/
theorem iterate_frob_128 (a : Nat) (ha : a < 2 ^ 128) : frob^[128] a = a := by
  apply ext_basis (fun a => frob^[128] a) (fun a => a)
    (fun a b ha hb => iterate_frob_xor 128 a b ha hb) (fun _ _ _ _ => rfl) _ a ha
  intro k hk
  show frob^[128] (2 ^ k) = 2 ^ k
  have key : ∀ i, i ≤ 127 → frob^[128] (mulX^[i] (2 ^ 127)) = mulX^[i] (2 ^ 127) := by
    intro i
    induction i with
    | zero => intro _; exact iterate_frob_one 128
    | succ i ih =>
      intro hi
      have e : mulX^[i + 1] (2 ^ 127) = mulX (mulX^[i] (2 ^ 127)) :=
        Function.iterate_succ_apply' mulX i _
      rw [e, mulX_eq_mul,
        iterate_frob_mul 128 _ _ (by decide) (iterate_mulX_lt i _ (by decide)),
        iterate_frob_x, ih (by omega)]
  have h := key (127 - k) (by omega)
  rw [iterate_mulX_one _ (by omega), show 127 - (127 - k) = k by omega] at h
  exact h

theorem lsum_xor (rows : List Nat) (v w n : Nat) :
    lsum rows (v ^^^ w) n = lsum rows v n ^^^ lsum rows w n := by
  induction n with
  | zero => simp [lsum]
  | succ n ih =>
    simp only [lsum, ih, Nat.testBit_xor]
    cases v.testBit n <;> cases w.testBit n
    · simp
    · simp only [Bool.false_xor, if_true, Bool.false_eq_true, if_false, Nat.xor_assoc]
    · simp only [Bool.xor_false, if_true, Bool.false_eq_true, if_false]
      ac_rfl
    · simp only [Bool.xor_self, if_true, Bool.false_eq_true, if_false, xor_xor_cancel]

set_option maxRecDepth 1000000 in
theorem idemInv_basis : (List.range 127).all (fun i =>
    idemInv (mul (2 ^ i) (2 ^ i) ^^^ 2 ^ i) == 2 ^ i) = true := by
  decide!

theorem idemInv_left (x : Nat) (hx : x < 2 ^ 127) : idemInv (mul x x ^^^ x) = x := by
  apply ext_basis_le (fun x => idemInv (mul x x ^^^ x)) (fun x => x) _
    (fun _ _ _ _ => rfl) 127 (by omega) _ x hx
  · intro a b ha hb
    show idemInv (mul (a ^^^ b) (a ^^^ b) ^^^ (a ^^^ b)) =
      idemInv (mul a a ^^^ a) ^^^ idemInv (mul b b ^^^ b)
    have := frob_xor a b ha hb
    unfold frob at this
    unfold idemInv
    rw [this, xor_shuffle, lsum_xor]
  · intro i hi
    have := List.all_eq_true.1 idemInv_basis i (List.mem_range.2 hi)
    simpa using this

/-- The field has no idempotent besides zero and one. -/
theorem idempotent_cases (e : Nat) (he : e < 2 ^ 128) (h : mul e e = e) :
    e = 0 ∨ e = 2 ^ 127 := by
  by_cases hb : e < 2 ^ 127
  · left
    have := idemInv_left e hb
    rw [h, Nat.xor_self] at this
    rw [← this]
    decide
  · right
    have h1 : e ^^^ 2 ^ 127 < 2 ^ 127 := by
      apply Nat.lt_pow_two_of_testBit
      intro i hi
      rw [Nat.testBit_xor]
      rcases Nat.eq_or_lt_of_le hi with h2 | h2
      · subst h2
        have : e.testBit 127 = true := by
          by_contra hc
          apply hb
          apply Nat.lt_pow_two_of_testBit
          intro j hj
          rcases Nat.eq_or_lt_of_le hj with h7 | h7
          · subst h7
            simpa using hc
          · exact Nat.testBit_lt_two_pow
              (lt_of_lt_of_le he (Nat.pow_le_pow_right (by decide) h7))
        rw [this, Nat.testBit_two_pow_self]
        rfl
      · rw [Nat.testBit_lt_two_pow (lt_of_lt_of_le he (Nat.pow_le_pow_right (by decide) h2)),
          Nat.testBit_two_pow_of_ne (by omega)]
        rfl
    have h3 := idemInv_left _ h1
    have h4 : mul (e ^^^ 2 ^ 127) (e ^^^ 2 ^ 127) ^^^ (e ^^^ 2 ^ 127) = 0 := by
      have := frob_xor e (2 ^ 127) he (by decide)
      unfold frob at this
      rw [this, h, gf_one_mul, Nat.xor_self]
    rw [h4] at h3
    have h5 : e ^^^ 2 ^ 127 = 0 := by
      rw [← h3]; decide
    have h6 := congrArg (fun t => t ^^^ 2 ^ 127) h5
    simp only [Nat.xor_assoc, Nat.xor_self, Nat.xor_zero, Nat.zero_xor] at h6
    exact h6

theorem pw_lt (a k : Nat) (ha : a < 2 ^ 128) : pw a k < 2 ^ 128 := by
  cases k with
  | zero => show 2 ^ 127 < 2 ^ 128; decide
  | succ k => exact gf_mul_lt _ _ ha

theorem pw_mul (a k : Nat) (ha : a < 2 ^ 128) : mul (pw a k) a = frob^[k] a := by
  induction k with
  | zero => exact gf_one_mul a
  | succ k ih =>
    have hp := pw_lt a k ha
    rw [pw, gf_mul_assoc _ a a (frob_lt _ hp) ha ha, Function.iterate_succ_apply', ← ih,
      frob_mul _ _ hp ha]
    rfl

/-- The field has no zero divisors. -/
theorem gf_mul_eq_zero (a b : Nat) (ha : a < 2 ^ 128) (hb : b < 2 ^ 128) (h : mul a b = 0) :
    a = 0 ∨ b = 0 := by
  by_cases ha0 : a = 0
  · exact Or.inl ha0
  right
  have hw : frob (pw a 127) < 2 ^ 128 := frob_lt _ (pw_lt a 127 ha)
  have he : mul (frob (pw a 127)) a = pw a 128 := rfl
  have hea : mul (pw a 128) a = a := by
    rw [pw_mul a 128 ha, iterate_frob_128 a ha]
  have hee : mul (pw a 128) (pw a 128) = pw a 128 := by
    have h1 : mul (pw a 128) (pw a 128) = mul (frob (pw a 127)) (mul a (pw a 128)) := by
      conv_lhs => rw [← he]
      rw [he]
      conv_lhs => rw [← he]
      exact gf_mul_assoc _ a _ hw ha (pw_lt a 128 ha)
    rw [h1, gf_mul_comm a _ ha (pw_lt a 128 ha), hea]
    rfl
  rcases idempotent_cases _ (pw_lt a 128 ha) hee with h0 | h1
  · rw [h0, mul_zero_left] at hea
    exact absurd hea.symm ha0
  · have : mul (pw a 128) b = mul (frob (pw a 127)) (mul a b) := by
      rw [← he]
      exact gf_mul_assoc _ a b hw ha hb
    rw [h, mul_zero_right, h1, gf_one_mul] at this
    exact this

/-- Multiplication by a non-zero element is injective. -/
theorem gf_mul_right_cancel (a b h : Nat) (ha : a < 2 ^ 128) (hb : b < 2 ^ 128)
    (hh : h < 2 ^ 128) (h0 : h ≠ 0) (he : mul a h = mul b h) : a = b := by
  have h1 : mul (a ^^^ b) h = 0 := by
    rw [mul_xor_left, he, Nat.xor_self]
  rcases gf_mul_eq_zero _ _ (Nat.xor_lt_two_pow ha hb) hh h1 with h2 | h2
  · have h3 := congrArg (fun t => t ^^^ b) h2
    simp only [Nat.xor_assoc, Nat.xor_self, Nat.xor_zero, Nat.zero_xor] at h3
    exact h3
  · exact absurd h2 h0

/-! #### GHASH -/

theorem foldl_be_lt (l : List Nat) (acc k : Nat) (hl : ∀ v ∈ l, v < 256)
    (ha : acc < 2 ^ (8 * k)) :
    l.foldl (fun acc v => acc <<< 8 ||| v) acc < 2 ^ (8 * (k + l.length)) := by
  induction l generalizing acc k with
  | nil => simpa using ha
  | cons v l ih =>
    have hv := hl v (List.mem_cons_self _ _)
    rw [List.foldl_cons, shiftLeft_or_eq_add acc v 8 (by omega)]
    have h2 : acc * 2 ^ 8 + v < 2 ^ (8 * (k + 1)) := by
      rw [Nat.mul_add, Nat.pow_add]
      have : (acc + 1) * 2 ^ 8 ≤ 2 ^ (8 * k) * 2 ^ (8 * 1) :=
        Nat.mul_le_mul (by omega) (le_refl _)
      omega
    have := ih (acc * 2 ^ 8 + v) (k + 1) (fun w hw => hl w (List.mem_cons_of_mem _ hw)) h2
    rw [List.length_cons, show k + (l.length + 1) = k + 1 + l.length by omega]
    exact this

theorem foldl_be_inj (l l2 : List Nat) (acc acc2 : Nat) (hl : ∀ v ∈ l, v < 256)
    (hl2 : ∀ v ∈ l2, v < 256) (hlen : l.length = l2.length)
    (h : l.foldl (fun acc v => acc <<< 8 ||| v) acc =
      l2.foldl (fun acc v => acc <<< 8 ||| v) acc2) : acc = acc2 ∧ l = l2 := by
  induction l generalizing acc acc2 l2 with
  | nil =>
    cases l2 with
    | nil => exact ⟨h, rfl⟩
    | cons _ _ => simp at hlen
  | cons v l ih =>
    cases l2 with
    | nil => simp at hlen
    | cons v2 l2 =>
      have hv := hl v (List.mem_cons_self _ _)
      have hv2 := hl2 v2 (List.mem_cons_self _ _)
      rw [List.foldl_cons, List.foldl_cons, shiftLeft_or_eq_add acc v 8 (by omega),
        shiftLeft_or_eq_add acc2 v2 8 (by omega)] at h
      obtain ⟨h1, h2⟩ := ih l2 _ _ (fun w hw => hl w (List.mem_cons_of_mem _ hw))
        (fun w hw => hl2 w (List.mem_cons_of_mem _ hw)) (by simpa using hlen) h
      have h3 : acc = acc2 ∧ v = v2 := by omega
      exact ⟨h3.1, by rw [h3.2, h2]⟩

theorem blockValue_eq (b : List Byte) :
    blockValue b = ((List.range 16).map (fun i => (b.getD i 0).val)).foldl
      (fun acc v => acc <<< 8 ||| v) 0 := by
  rw [blockValue, List.foldl_map]

theorem blockValue_lt (b : List Byte) : blockValue b < 2 ^ 128 := by
  rw [blockValue_eq]
  have := foldl_be_lt ((List.range 16).map (fun i => (b.getD i 0).val)) 0 0
    (by
      intro v hv
      obtain ⟨i, _, rfl⟩ := List.mem_map.1 hv
      exact (b.getD i 0).isLt)
    (by decide)
  simpa using this

theorem blockValue_inj (b b2 : List Byte) (h : blockValue b = blockValue b2) (i : Nat)
    (hi : i < 16) : b.getD i 0 = b2.getD i 0 := by
  rw [blockValue_eq, blockValue_eq] at h
  have := (foldl_be_inj _ _ 0 0
    (by
      intro v hv
      obtain ⟨i, _, rfl⟩ := List.mem_map.1 hv
      exact (b.getD i 0).isLt)
    (by
      intro v hv
      obtain ⟨i, _, rfl⟩ := List.mem_map.1 hv
      exact (b2.getD i 0).isLt)
    (by simp) h).2
  have h2 := List.map_inj_left.1 this i (List.mem_range.2 hi)
  exact Fin.ext h2

theorem blockValue_congr (b b2 : List Byte) (h : ∀ i, i < 16 → b.getD i 0 = b2.getD i 0) :
    blockValue b = blockValue b2 := by
  rw [blockValue_eq, blockValue_eq]
  congr 1
  apply List.map_congr_left
  intro i hi
  rw [h i (List.mem_range.1 hi)]

theorem update_nil (h y : Nat) : update h y [] = y := rfl

/-- The first block is absorbed, then the rest of the data. -/
theorem update_cons (h y : Nat) (data : List Byte) (hd : data ≠ []) :
    update h y data = update h (mul (y ^^^ blockValue data) h) (data.drop 16) := by
  have hl : 0 < data.length := List.length_pos.2 hd
  have hn : (data.length + 15) / 16 = ((data.drop 16).length + 15) / 16 + 1 := by
    rw [List.length_drop]; omega
  unfold update
  rw [hn, List.range_succ_eq_map, List.foldl_cons, List.foldl_map]
  have hs : ∀ i : Nat, 16 * i.succ = 16 + 16 * i := fun i => by omega
  simp only [Nat.mul_zero, List.drop_zero, List.drop_drop, hs]

theorem update_lt (h y : Nat) (data : List Byte) (hh : h < 2 ^ 128) (hy : y < 2 ^ 128) :
    update h y data < 2 ^ 128 := by
  generalize hn : data.length = n
  induction n using Nat.strong_induction_on generalizing data y with
  | _ n ih =>
    subst hn
    by_cases hd : data = []
    · subst hd; exact hy
    · rw [update_cons h y data hd]
      have hl : 0 < data.length := List.length_pos.2 hd
      exact ih (data.drop 16).length (by rw [List.length_drop]; omega) _ _
        (gf_mul_lt _ _ hh) rfl

/-- With a non-zero key, absorbing the same data keeps two states apart. -/
theorem update_inj_init (h y y2 : Nat) (data : List Byte) (hh : h < 2 ^ 128) (h0 : h ≠ 0)
    (hy : y < 2 ^ 128) (hy2 : y2 < 2 ^ 128) (he : update h y data = update h y2 data) :
    y = y2 := by
  generalize hn : data.length = n
  induction n using Nat.strong_induction_on generalizing data y y2 with
  | _ n ih =>
    subst hn
    by_cases hd : data = []
    · subst hd; exact he
    · rw [update_cons h y data hd, update_cons h y2 data hd] at he
      have hl : 0 < data.length := List.length_pos.2 hd
      have hb := blockValue_lt data
      have h1 := ih (data.drop 16).length (by rw [List.length_drop]; omega) _ _ _
        (gf_mul_lt _ _ hh) (gf_mul_lt _ _ hh) he rfl
      have h2 := gf_mul_right_cancel _ _ h (Nat.xor_lt_two_pow hy hb)
        (Nat.xor_lt_two_pow hy2 hb) hh h0 h1
      have h3 := congrArg (fun t => t ^^^ blockValue data) h2
      simp only [Nat.xor_assoc, Nat.xor_self, Nat.xor_zero] at h3
      exact h3

theorem getD_take16 (b : List Byte) (i : Nat) (hi : i < 16) :
    (b.take 16).getD i 0 = b.getD i 0 := by
  rw [List.getD_eq_getElem?_getD, List.getD_eq_getElem?_getD, List.getElem?_take, if_pos hi]

theorem take16_eq_of_getD (b b2 : List Byte) (hlen : b.length = b2.length)
    (h : ∀ i, i < 16 → b.getD i 0 = b2.getD i 0) : b.take 16 = b2.take 16 := by
  apply List.ext_getElem
  · rw [List.length_take, List.length_take, hlen]
  · intro i h1 h2
    rw [List.length_take] at h1 h2
    have e1 : (b.take 16)[i] = b.getD i 0 := by
      rw [List.getElem_take, List.getD_eq_getElem b 0 (by omega)]
    have e2 : (b2.take 16)[i] = b2.getD i 0 := by
      rw [List.getElem_take, List.getD_eq_getElem b2 0 (by omega)]
    rw [e1, e2, h i (by omega)]

theorem blockValue_take16 (b b2 : List Byte) (h : b.take 16 = b2.take 16) :
    blockValue b = blockValue b2 := by
  apply blockValue_congr
  intro i hi
  rw [← getD_take16 b i hi, ← getD_take16 b2 i hi, h]

/-- With a non-zero key, two data of the same length that differ in one block only are
absorbed into different states. -/
theorem update_inj_block (h : Nat) (hh : h < 2 ^ 128) (h0 : h ≠ 0) (j : Nat) (y : Nat)
    (data data2 : List Byte) (hy : y < 2 ^ 128) (hlen : data.length = data2.length)
    (ht : data.take (16 * j) = data2.take (16 * j))
    (hd : data.drop (16 * (j + 1)) = data2.drop (16 * (j + 1)))
    (he : update h y data = update h y data2) : data = data2 := by
  induction j generalizing y data data2 with
  | zero =>
    by_cases hn : data = []
    · subst hn
      exact (List.length_eq_zero.1 hlen.symm).symm
    · have hn2 : data2 ≠ [] := by
        intro hc; subst hc; exact hn (List.length_eq_zero.1 hlen)
      rw [update_cons h y data hn, update_cons h y data2 hn2] at he
      simp only [Nat.zero_add, Nat.mul_one] at hd
      rw [hd] at he
      have h1 := update_inj_init h _ _ _ hh h0 (gf_mul_lt _ _ hh) (gf_mul_lt _ _ hh) he
      have h2 := gf_mul_right_cancel _ _ h (Nat.xor_lt_two_pow hy (blockValue_lt data))
        (Nat.xor_lt_two_pow hy (blockValue_lt data2)) hh h0 h1
      have h3 := congrArg (fun t => y ^^^ t) h2
      simp only [← Nat.xor_assoc, Nat.xor_self, Nat.zero_xor] at h3
      have h4 := take16_eq_of_getD data data2 hlen (blockValue_inj data data2 h3)
      rw [← List.take_append_drop 16 data, ← List.take_append_drop 16 data2, h4, hd]
  | succ j ih =>
    by_cases hn : data = []
    · subst hn
      exact (List.length_eq_zero.1 hlen.symm).symm
    · have hn2 : data2 ≠ [] := by
        intro hc; subst hc; exact hn (List.length_eq_zero.1 hlen)
      have h4 : data.take 16 = data2.take 16 := by
        have := congrArg (List.take 16) ht
        rw [List.take_take, List.take_take, Nat.min_eq_left (by omega)] at this
        exact this
      rw [update_cons h y data hn, update_cons h y data2 hn2, blockValue_take16 _ _ h4] at he
      have h5 := ih (mul (y ^^^ blockValue data2) h) (data.drop 16) (data2.drop 16)
        (gf_mul_lt _ _ hh) (by rw [List.length_drop, List.length_drop, hlen])
        (by
          have := congrArg (List.drop 16) ht
          rw [List.drop_take, List.drop_take] at this
          rw [show 16 * (j + 1) - 16 = 16 * j by omega] at this
          exact this)
        (by
          rw [List.drop_drop, List.drop_drop]
          rw [show 16 + 16 * (j + 1) = 16 * (j + 1 + 1) by omega]
          exact hd)
        he
      rw [← List.take_append_drop 16 data, ← List.take_append_drop 16 data2, h4, h5]

end cipher

/-- Decoding what `EncodeToString` wrote gives the bytes back, without error. -/
theorem DecodeString_EncodeToString (B : List Byte) :
    base64.DecodeString (base64.EncodeToString B) = (B, false) :=
  base64.decodeFrom_EncodeToString B

/-! ### unicode/utf8, strings -/

namespace cipher

theorem blockBytes_inj (x x2 : Nat) (hx : x < 2 ^ 128) (hx2 : x2 < 2 ^ 128)
    (h : blockBytes x = blockBytes x2) : x = x2 := by
  unfold blockBytes at h
  have hb : ∀ i, i < 16 → (x >>> (8 * (15 - i))) % 256 = (x2 >>> (8 * (15 - i))) % 256 := by
    intro i hi
    have := List.map_inj_left.1 h i (List.mem_range.2 hi)
    exact congrArg Fin.val this
  apply Nat.eq_of_testBit_eq
  intro j
  by_cases hj : j < 128
  · have h1 := hb (15 - j / 8) (by omega)
    rw [show 15 - (15 - j / 8) = j / 8 by omega] at h1
    have h2 := congrArg (fun t => Nat.testBit t (j % 8)) h1
    simp only at h2
    rw [show 256 = 2 ^ 8 by rfl, Nat.testBit_mod_two_pow, Nat.testBit_mod_two_pow,
      Nat.testBit_shiftRight, Nat.testBit_shiftRight,
      show 8 * (j / 8) + j % 8 = j by omega] at h2
    simpa [show j % 8 < 8 by omega] using h2
  · have hp : 2 ^ 128 ≤ 2 ^ j := Nat.pow_le_pow_right (by decide) (by omega)
    rw [Nat.testBit_lt_two_pow (lt_of_lt_of_le hx hp),
      Nat.testBit_lt_two_pow (lt_of_lt_of_le hx2 hp)]

theorem hashKey_lt (g : gcm) : g.hashKey < 2 ^ 128 := blockValue_lt _

/-- With a non-zero hash key, equal tags for data of equal lengths come from equal
GHASH states. -/
theorem auth_inj (g : gcm) (ct ct2 ad ad2 mask : List Byte) (hm : mask.length = 16)
    (h0 : g.hashKey ≠ 0) (hlc : ct.length = ct2.length) (hla : ad.length = ad2.length)
    (he : g.auth ct ad mask = g.auth ct2 ad2 mask) :
    update g.hashKey (update g.hashKey 0 ad) ct =
      update g.hashKey (update g.hashKey 0 ad2) ct2 := by
  have hh := hashKey_lt g
  unfold gcm.auth at he
  simp only at he
  have h1 := congrArg (fun t => xorBytes t mask) he
  simp only at h1
  rw [xorBytes_xorBytes _ _ (by rw [blockBytes_length, hm]),
    xorBytes_xorBytes _ _ (by rw [blockBytes_length, hm])] at h1
  have h2 := blockBytes_inj _ _ (gf_mul_lt _ _ hh) (gf_mul_lt _ _ hh) h1
  have hy : update g.hashKey (update g.hashKey 0 ad) ct < 2 ^ 128 :=
    update_lt _ _ _ hh (update_lt _ _ _ hh (by decide))
  have hy2 : update g.hashKey (update g.hashKey 0 ad2) ct2 < 2 ^ 128 :=
    update_lt _ _ _ hh (update_lt _ _ _ hh (by decide))
  have hA : ((ad.length * 8) % 2 ^ 64) <<< 64 < 2 ^ 128 := by
    rw [Nat.shiftLeft_eq]
    have : ad.length * 8 % 2 ^ 64 < 2 ^ 64 := Nat.mod_lt _ (by decide)
    calc ad.length * 8 % 2 ^ 64 * 2 ^ 64 < 2 ^ 64 * 2 ^ 64 :=
          Nat.mul_lt_mul_of_pos_right this (by decide)
      _ = 2 ^ 128 := by decide
  have hB : (ct.length * 8) % 2 ^ 64 < 2 ^ 128 :=
    lt_trans (Nat.mod_lt _ (by decide)) (by decide)
  rw [← hla, ← hlc] at h2
  have h3 := gf_mul_right_cancel _ _ _
    (Nat.xor_lt_two_pow (Nat.xor_lt_two_pow hy hA) hB)
    (Nat.xor_lt_two_pow (Nat.xor_lt_two_pow hy2 hA) hB) hh h0 h2
  have h4 := congrArg
    (fun t => t ^^^ (ct.length * 8) % 2 ^ 64 ^^^ ((ad.length * 8) % 2 ^ 64) <<< 64) h3
  simp only [Nat.xor_assoc, Nat.xor_self, Nat.xor_zero] at h4
  exact h4

end cipher

theorem flipBit_length (data : List Byte) (i : Nat) : (flipBit data i).length = data.length := by
  simp [flipBit]

theorem flip_byte_ne (b : Byte) (k : Nat) (hk : k < 8) : toByte (b.val ^^^ 1 <<< k) ≠ b := by
  intro h
  have h1 := congrArg Fin.val h
  have h2 : (1 : Nat) <<< k < 2 ^ 8 := by
    rw [Nat.shiftLeft_eq, Nat.one_mul]
    exact Nat.pow_lt_pow_right (by decide) hk
  have h3 : b.val ^^^ 1 <<< k < 256 := Nat.xor_lt_two_pow (n := 8) b.isLt h2
  simp only [toByte] at h1
  rw [Nat.mod_eq_of_lt h3] at h1
  have h4 := congrArg (fun t => b.val ^^^ t) h1
  simp only [← Nat.xor_assoc, Nat.xor_self, Nat.zero_xor] at h4
  rw [Nat.shiftLeft_eq, Nat.one_mul] at h4
  have := Nat.two_pow_pos k
  omega

theorem flipBit_ne (data : List Byte) (i : Nat) (hi : i < 8 * data.length) :
    flipBit data i ≠ data := by
  intro h
  have hlt : i / 8 < data.length := by omega
  have h1 := congrArg (fun l => l.getD (i / 8) 0) h
  simp only [flipBit] at h1
  rw [List.getD_eq_getElem _ 0 (by rw [List.length_set]; exact hlt), List.getElem_set_self] at h1
  exact flip_byte_ne _ _ (by omega) h1

theorem flipBit_take (data : List Byte) (i m : Nat) (hm : m ≤ i / 8) :
    (flipBit data i).take m = data.take m := by
  unfold flipBit
  rw [List.set_take, List.set_eq_of_length_le]
  rw [List.length_take]
  omega

theorem flipBit_drop (data : List Byte) (i m : Nat) (hm : i / 8 < m) :
    (flipBit data i).drop m = data.drop m := by
  unfold flipBit
  exact List.drop_set_of_lt _ _ hm

theorem flipBit_append_left (body tag : List Byte) (i : Nat) (hi : i / 8 < body.length) :
    flipBit (body ++ tag) i = flipBit body i ++ tag := by
  unfold flipBit
  rw [List.set_append, if_pos hi, List.getD_eq_getElem?_getD, List.getD_eq_getElem?_getD,
    List.getElem?_append_left hi]

theorem flipBit_append_right (body tag : List Byte) (i : Nat) (hi : body.length ≤ i / 8) :
    flipBit (body ++ tag) i = body ++ flipBit tag (i - 8 * body.length) := by
  unfold flipBit
  rw [List.set_append, if_neg (by omega), List.getD_eq_getElem?_getD,
    List.getD_eq_getElem?_getD, List.getElem?_append_right hi,
    show (i - 8 * body.length) / 8 = i / 8 - body.length by omega,
    show (i - 8 * body.length) % 8 = i % 8 by omega]

namespace cipher

/-- With a non-zero hash key, a change within one block of the ciphertext changes the
tag. -/
theorem auth_body_ne (g : gcm) (ct ct2 ad mask : List Byte) (hm : mask.length = 16)
    (h0 : g.hashKey ≠ 0) (hlen : ct.length = ct2.length) (j : Nat)
    (ht : ct.take (16 * j) = ct2.take (16 * j))
    (hd : ct.drop (16 * (j + 1)) = ct2.drop (16 * (j + 1))) (hne : ct ≠ ct2) :
    g.auth ct ad mask ≠ g.auth ct2 ad mask := by
  intro he
  have h1 := auth_inj g ct ct2 ad ad mask hm h0 hlen rfl he
  exact hne (update_inj_block _ (hashKey_lt g) h0 j _ ct ct2
    (update_lt _ _ _ (hashKey_lt g) (by decide)) hlen ht hd h1)

/-- With a non-zero hash key, a change within one block of the additional data changes
the tag. -/
theorem auth_data_ne (g : gcm) (ct ad ad2 mask : List Byte) (hm : mask.length = 16)
    (h0 : g.hashKey ≠ 0) (hlen : ad.length = ad2.length) (j : Nat)
    (ht : ad.take (16 * j) = ad2.take (16 * j))
    (hd : ad.drop (16 * (j + 1)) = ad2.drop (16 * (j + 1))) (hne : ad ≠ ad2) :
    g.auth ct ad mask ≠ g.auth ct ad2 mask := by
  intro he
  have h1 := auth_inj g ct ct ad ad2 mask hm h0 rfl hlen he
  have h2 := update_inj_init _ _ _ ct (hashKey_lt g) h0
    (update_lt _ _ _ (hashKey_lt g) (by decide))
    (update_lt _ _ _ (hashKey_lt g) (by decide)) h1
  exact hne (update_inj_block _ (hashKey_lt g) h0 j 0 ad ad2 (by decide) hlen ht hd h2)

end cipher

/-! ### The program -/

/-- With two arguments or more the set-up succeeds; the variables it leaves. -/
theorem startup_ready (room key : GoString) (rest : List GoString) :
    startup (room :: key :: rest) = .ready
      ⟨[], goStr "snats." ++ proto ++ goStr "." ++ room, key, sha256.checkSum key,
        ⟨⟨aes.expandKeyGo (sha256.checkSum key)⟩, 32, 16⟩,
        sha256.checkSum
          (key ++ (goStr "snats." ++ proto ++ goStr "." ++ room) ++ sha256.checkSum key)⟩ := by
  have h := aes_NewCipher_of_length (sha256.checkSum key) (sha256_checkSum_length key)
  simp [startup, sha256.digest.Write, sha256.digest.Sum, sha256.New, h,
    cipher.NewGCMWithNonceSize, sha256.Size, cipher.gcmTagSize]

/-- The set-up reaches `ready` only with the nonce and tag sizes 32 and 16 and a nonce of
32 bytes. -/
theorem startup_sizes (args : List GoString) (g : Globals) (h : startup args = .ready g) :
    g.gcm.nonceSize = 32 ∧ g.gcm.tagSize = 16 ∧ g.nonce.length = 32 ∧ g.name = [] := by
  match args, h with
  | [], h => simp [startup] at h
  | [a], h => simp [startup] at h
  | room :: key :: rest, h =>
      rw [startup_ready] at h
      injection h with h
      subst h
      exact ⟨rfl, rfl, sha256_checkSum_length _, rfl⟩

/-- After the set-up `encrypt` panics exactly on a message above the GCM limit. -/
theorem encrypt_eq_none_iff (g : Globals) (S M : GoString)
    (hn : g.nonce.length = g.gcm.nonceSize) :
    encrypt (g.scanName S) M = none ↔ M.length > cipher.gcmMaxPlaintext := by
  have h := cipher.Seal_eq_none_iff g.gcm g.nonce M S
  simp only [encrypt, Globals.scanName]
  cases hs : g.gcm.Seal g.nonce M S with
  | none =>
      simp only [true_iff]
      rcases h.1 hs with h1 | h1
      · exact absurd hn h1
      · exact h1
  | some c =>
      simp only [false_iff, reduceCtorEq]
      intro hc
      have := h.2 (Or.inr hc)
      rw [hs] at this
      exact Option.noConfusion this

/-- After the set-up `decrypt` does not panic. -/
theorem decrypt_ne_none (g : Globals) (S : GoString) (msg : chat)
    (hn : g.nonce.length = g.gcm.nonceSize) : decrypt (g.scanName S) msg ≠ none := by
  simp only [decrypt, Globals.scanName]
  cases ho : g.gcm.Open g.nonce (base64.DecodeString msg.Msg).1 msg.Name with
  | panics =>
      exfalso
      unfold cipher.gcm.Open at ho
      rw [if_neg (by simpa using hn)] at ho
      split at ho
      · exact cipher.Opened.noConfusion ho
      · split at ho
        · exact cipher.Opened.noConfusion ho
        · simp only at ho
          split at ho <;> exact cipher.Opened.noConfusion ho
  | errOpen => simp
  | plaintext v => simp

/-- Opening an envelope that `encrypt` produced under the name it carries. -/
theorem decrypt_encrypt (g : Globals) (S M c : GoString) (ht : g.gcm.tagSize = 16)
    (h : encrypt (g.scanName S) M = some c) : decrypt (g.scanName S) ⟨S, c⟩ = some M := by
  simp only [encrypt, Globals.scanName] at h
  cases hs : g.gcm.Seal g.nonce M S with
  | none => rw [hs] at h; exact Option.noConfusion h
  | some sealed =>
      rw [hs] at h
      injection h with h
      subst h
      simp only [decrypt, Globals.scanName, DecodeString_EncodeToString,
        cipher.Open_Seal g.gcm g.nonce M S sealed ht hs]

/-- What `decrypt` returns on the text of a body followed by a 16-byte tag. -/
theorem decrypt_append (g : Globals) (L S body tag : GoString) (ht : g.gcm.tagSize = 16)
    (hn : g.nonce.length = g.gcm.nonceSize) (hb : body.length ≤ cipher.gcmMaxPlaintext)
    (hl : tag.length = 16) :
    decrypt (g.scanName L) ⟨S, base64.EncodeToString (body ++ tag)⟩ =
      if g.gcm.auth body S (g.gcm.cipher.Encrypt (g.gcm.deriveCounter g.nonce)) = tag then
        some (g.gcm.counterCrypt body (cipher.gcmInc32 (g.gcm.deriveCounter g.nonce)))
      else some unableToDecrypt := by
  simp only [decrypt, Globals.scanName, DecodeString_EncodeToString,
    cipher.Open_append g.gcm g.nonce body tag S ht hn hb hl]
  by_cases h : g.gcm.auth body S (g.gcm.cipher.Encrypt (g.gcm.deriveCounter g.nonce)) = tag
  · simp only [if_pos h]
  · simp only [if_neg h]

/-- What `encrypt` returns when it does not panic. -/
theorem encrypt_eq_some (g : Globals) (S M c : GoString) (ht : g.gcm.tagSize = 16)
    (hn : g.nonce.length = g.gcm.nonceSize) (h : encrypt (g.scanName S) M = some c) :
    M.length ≤ cipher.gcmMaxPlaintext ∧
    c = base64.EncodeToString
      (g.gcm.counterCrypt M (cipher.gcmInc32 (g.gcm.deriveCounter g.nonce)) ++
        g.gcm.auth (g.gcm.counterCrypt M (cipher.gcmInc32 (g.gcm.deriveCounter g.nonce))) S
          (g.gcm.cipher.Encrypt (g.gcm.deriveCounter g.nonce))) := by
  have hp : M.length ≤ cipher.gcmMaxPlaintext := by
    by_contra hc
    have := (encrypt_eq_none_iff g S M hn).2 (by omega)
    rw [this] at h
    exact Option.noConfusion h
  refine ⟨hp, ?_⟩
  simp only [encrypt, Globals.scanName, cipher.Seal_eq_some g.gcm g.nonce M S hn hp] at h
  injection h with h
  rw [← h, ht, List.take_of_length_le]
  rw [cipher.auth_length _ _ _ _ (aes_Encrypt_length _ _)]

/-- What `decrypt` returns on variations of a text that `encrypt` produced. -/
theorem decrypt_tampered (g : Globals) (S M c : GoString) (ht : g.gcm.tagSize = 16)
    (hn : g.nonce.length = g.gcm.nonceSize) (hc : encrypt (g.scanName S) M = some c) :
    ∃ body tag, base64.DecodeString c = (body ++ tag, false) ∧
      body.length = M.length ∧ tag.length = 16 ∧
      tag = g.gcm.auth body S (g.gcm.cipher.Encrypt (g.gcm.deriveCounter g.nonce)) ∧
      (∀ L S1, decrypt (g.scanName L) ⟨S1, c⟩ =
        if g.gcm.auth body S1 (g.gcm.cipher.Encrypt (g.gcm.deriveCounter g.nonce)) = tag
        then some M else some unableToDecrypt) ∧
      (∀ L S1 body1 tag1, body1.length ≤ cipher.gcmMaxPlaintext → tag1.length = 16 →
        g.gcm.auth body1 S1 (g.gcm.cipher.Encrypt (g.gcm.deriveCounter g.nonce)) ≠ tag1 →
        decrypt (g.scanName L) ⟨S1, base64.EncodeToString (body1 ++ tag1)⟩ =
          some unableToDecrypt) ∧
      (∀ L tag1, tag1.length = 16 → tag1 ≠ tag →
        decrypt (g.scanName L) ⟨S, base64.EncodeToString (body ++ tag1)⟩ =
          some unableToDecrypt) := by
  obtain ⟨hp, hc⟩ := encrypt_eq_some g S M c ht hn hc
  have hbl : (g.gcm.counterCrypt M (cipher.gcmInc32 (g.gcm.deriveCounter g.nonce))).length
      = M.length := cipher.counterCrypt_length _ _ _
  refine ⟨g.gcm.counterCrypt M (cipher.gcmInc32 (g.gcm.deriveCounter g.nonce)),
    g.gcm.auth (g.gcm.counterCrypt M (cipher.gcmInc32 (g.gcm.deriveCounter g.nonce))) S
      (g.gcm.cipher.Encrypt (g.gcm.deriveCounter g.nonce)), ?_, hbl,
    cipher.auth_length _ _ _ _ (aes_Encrypt_length _ _), rfl, ?_, ?_, ?_⟩
  · rw [hc, DecodeString_EncodeToString]
  · intro L S1
    rw [hc, decrypt_append g L S1 _ _ ht hn (by rw [hbl]; exact hp)
      (cipher.auth_length _ _ _ _ (aes_Encrypt_length _ _)), cipher.counterCrypt_counterCrypt]
  · intro L S1 body1 tag1 hb hl hne
    rw [decrypt_append g L S1 body1 tag1 ht hn hb hl, if_neg hne]
  · intro L tag1 hl hne
    rw [decrypt_append g L S _ tag1 ht hn (by rw [hbl]; exact hp) hl,
      if_neg (fun h => hne h.symm)]

/-- With a non-zero hash key, `decrypt` rejects a sealed text with one bit flipped, and
rejects a sealed text under a name of the same length that differs in one block. -/
theorem decrypt_flipped (g : Globals) (S M c : GoString) (ht : g.gcm.tagSize = 16)
    (hn : g.nonce.length = g.gcm.nonceSize) (hc : encrypt (g.scanName S) M = some c)
    (h0 : g.gcm.hashKey ≠ 0) :
    (∀ L i, i < 8 * (base64.DecodeString c).1.length →
      decrypt (g.scanName L) ⟨S, base64.EncodeToString (flipBit (base64.DecodeString c).1 i)⟩ =
        some unableToDecrypt) ∧
    (∀ L S1 j, S1 ≠ S → S1.length = S.length → S1.take (16 * j) = S.take (16 * j) →
      S1.drop (16 * (j + 1)) = S.drop (16 * (j + 1)) →
      decrypt (g.scanName L) ⟨S1, c⟩ = some unableToDecrypt) := by
  obtain ⟨hp, hc⟩ := encrypt_eq_some g S M c ht hn hc
  have hbl : (g.gcm.counterCrypt M (cipher.gcmInc32 (g.gcm.deriveCounter g.nonce))).length
      = M.length := cipher.counterCrypt_length _ _ _
  have hm : (g.gcm.cipher.Encrypt (g.gcm.deriveCounter g.nonce)).length = 16 :=
    aes_Encrypt_length _ _
  have htl := cipher.auth_length g.gcm
    (g.gcm.counterCrypt M (cipher.gcmInc32 (g.gcm.deriveCounter g.nonce))) S _ hm
  constructor
  · intro L i hi
    rw [hc, DecodeString_EncodeToString] at hi ⊢
    simp only at hi ⊢
    rw [List.length_append, hbl, htl] at hi
    by_cases hb : i / 8 <
        (g.gcm.counterCrypt M (cipher.gcmInc32 (g.gcm.deriveCounter g.nonce))).length
    · rw [flipBit_append_left _ _ _ hb,
        decrypt_append g L S _ _ ht hn (by rw [flipBit_length, hbl]; exact hp) htl,
        if_neg]
      have hj : 16 * (i / 8 / 16) ≤ i / 8 := Nat.mul_div_le _ _
      have hj2 : i / 8 < 16 * (i / 8 / 16 + 1) := by omega
      exact cipher.auth_body_ne g.gcm _ _ S _ hm h0 (flipBit_length _ _) (i / 8 / 16)
        (flipBit_take _ _ _ hj) (flipBit_drop _ _ _ hj2)
        (flipBit_ne _ _ (by rw [hbl] at hb ⊢; omega))
    · rw [flipBit_append_right _ _ _ (by omega),
        decrypt_append g L S _ _ ht hn (by rw [hbl]; exact hp) (by rw [flipBit_length, htl]),
        if_neg]
      exact fun h => flipBit_ne _ _ (by rw [htl, hbl]; rw [hbl] at hb; omega) h.symm
  · intro L S1 j hne hlen htk hdr
    rw [hc, decrypt_append g L S1 _ _ ht hn (by rw [hbl]; exact hp) htl, if_neg]
    exact cipher.auth_data_ne g.gcm _ S1 S _ hm h0 hlen j htk hdr hne

/-! ### Claims -/

/-- C1. Round trip: for every room, passphrase, display name `S` and plaintext `M`, the
set-up succeeds, `encrypt` returns an envelope text for every `M` within the GCM limit,
and `decrypt` applied to the envelope `{Name: S, Msg: encrypt(M)}` produced while the
local name is `S` returns exactly `M`. -/
theorem c1_round_trip (room key : GoString) (rest : List GoString) (S M : GoString) :
    ∃ g, startup (room :: key :: rest) = .ready g ∧
      (M.length ≤ cipher.gcmMaxPlaintext → ∃ c, encrypt (g.scanName S) M = some c) ∧
      ∀ c, encrypt (g.scanName S) M = some c → decrypt (g.scanName S) ⟨S, c⟩ = some M := by
  refine ⟨_, startup_ready room key rest, ?_, ?_⟩
  · intro hM
    cases he : encrypt (Globals.scanName _ S) M with
    | none =>
        have := (encrypt_eq_none_iff _ S M (by exact sha256_checkSum_length _)).1 he
        omega
    | some c => exact ⟨c, rfl⟩
  · intro c hc
    exact decrypt_encrypt _ S M c rfl hc

set_option maxRecDepth 100000 in
/-- C2, counterexample. With passphrase "secret" and room "lobby", the envelope text
`g9HdK4PrSAKh9I/1AblELlTVVmFX6g==!` is not valid base64 (`DecodeString` reports an error
for the character after the padding), yet `decrypt` of the envelope carrying it under
the name "alice" returns the plaintext "hello\n", not the placeholder. -/
theorem c2_malformed_envelope_counterexample :
    ∃ g, startup [goStr "lobby", goStr "secret"] = .ready g ∧
      (base64.DecodeString (goStr "g9HdK4PrSAKh9I/1AblELlTVVmFX6g==!")).2 = true ∧
      decrypt (g.scanName (goStr "bob"))
        ⟨goStr "alice", goStr "g9HdK4PrSAKh9I/1AblELlTVVmFX6g==!"⟩ = some (goStr "hello\n") ∧
      goStr "hello\n" ≠ unableToDecrypt := by
  refine ⟨_, startup_ready _ _ _, by decide, ?_, by decide⟩
  decide!

/-- C2, amended. For every envelope, whatever its text, `decrypt` does not panic and
returns what it returns on the well-formed text of the bytes `DecodeString` gave back
with or without an error; it returns the placeholder whenever those bytes are fewer than
the 16 of a tag. -/
theorem c2_malformed_envelope (room key : GoString) (rest : List GoString) (L : GoString)
    (msg : chat) :
    ∃ g, startup (room :: key :: rest) = .ready g ∧
      decrypt (g.scanName L) msg ≠ none ∧
      decrypt (g.scanName L) msg =
        decrypt (g.scanName L)
          ⟨msg.Name, base64.EncodeToString (base64.DecodeString msg.Msg).1⟩ ∧
      ((base64.DecodeString msg.Msg).1.length < 16 →
        decrypt (g.scanName L) msg = some unableToDecrypt) := by
  refine ⟨_, startup_ready room key rest, ?_, ?_, ?_⟩
  · exact decrypt_ne_none _ L msg (by exact sha256_checkSum_length _)
  · simp only [decrypt, DecodeString_EncodeToString]
  · intro h
    simp only [decrypt, Globals.scanName]
    rw [cipher.Open_short _ _ _ _ (by exact sha256_checkSum_length _) (by exact h)]

set_option maxRecDepth 100000 in
/-- C3, counterexample. With passphrase "secret" and room "lobby", the text sealed for
"hello\n" under the sender name `lsjasxdgvjhkvsrwkokyvvnxbuinofmx` is opened by `decrypt`
under the different name `smfwevlbwztdogqspyorengarmjkfpls`, which returns the plaintext
and not the placeholder. -/
theorem c3_sender_binding_counterexample :
    ∃ g, startup [goStr "lobby", goStr "secret"] = .ready g ∧
      goStr "smfwevlbwztdogqspyorengarmjkfpls" ≠ goStr "lsjasxdgvjhkvsrwkokyvvnxbuinofmx" ∧
      encrypt (g.scanName (goStr "lsjasxdgvjhkvsrwkokyvvnxbuinofmx")) (goStr "hello\n") =
        some (goStr "g9HdK4PrHkXpbfqwXhHLVBxyhtFMhA==") ∧
      decrypt (g.scanName (goStr "bob"))
        ⟨goStr "smfwevlbwztdogqspyorengarmjkfpls", goStr "g9HdK4PrHkXpbfqwXhHLVBxyhtFMhA=="⟩ =
        some (goStr "hello\n") ∧
      goStr "hello\n" ≠ unableToDecrypt := by
  refine ⟨_, startup_ready _ _ _, by decide, ?_, ?_, by decide⟩
  · decide!
  · decide!

/-- C3, amended. For every plaintext `M` and sender name `S`, the text `encrypt` produces
is the encoding of a body as long as `M` followed by the 16-byte tag computed for `S`,
and: `decrypt` of that text under a name `S1` returns `M` when the tag computed for `S1`
is the tag sealed for `S`, and the placeholder otherwise, never another text; under the
name `S`, the body followed by any other 16 bytes gives the placeholder; and, when the
hash key of GHASH is not zero, the sealed bytes with any single bit flipped, in the body
or in the tag, give the placeholder, and so does the text under any other name `S1` of
the same length that differs from `S` within one 16-byte block (in particular any other
name of the same length of at most 16 bytes). -/
theorem c3_tamper_detection (room key : GoString) (rest : List GoString) (S M : GoString) :
    ∃ g, startup (room :: key :: rest) = .ready g ∧
      ∀ c, encrypt (g.scanName S) M = some c →
        ∃ body tag, base64.DecodeString c = (body ++ tag, false) ∧
          body.length = M.length ∧ tag.length = 16 ∧
          tag = g.gcm.auth body S (g.gcm.cipher.Encrypt (g.gcm.deriveCounter g.nonce)) ∧
          (∀ L S1, decrypt (g.scanName L) ⟨S1, c⟩ =
            if g.gcm.auth body S1 (g.gcm.cipher.Encrypt (g.gcm.deriveCounter g.nonce)) = tag
            then some M else some unableToDecrypt) ∧
          (∀ L tag1, tag1.length = 16 → tag1 ≠ tag →
            decrypt (g.scanName L) ⟨S, base64.EncodeToString (body ++ tag1)⟩ =
              some unableToDecrypt) ∧
          (g.gcm.hashKey ≠ 0 →
            (∀ L i, i < 8 * (body ++ tag).length →
              decrypt (g.scanName L) ⟨S, base64.EncodeToString (flipBit (body ++ tag) i)⟩ =
                some unableToDecrypt) ∧
            (∀ L S1 j, S1 ≠ S → S1.length = S.length → S1.take (16 * j) = S.take (16 * j) →
              S1.drop (16 * (j + 1)) = S.drop (16 * (j + 1)) →
              decrypt (g.scanName L) ⟨S1, c⟩ = some unableToDecrypt)) := by
  refine ⟨_, startup_ready room key rest, fun c hc => ?_⟩
  obtain ⟨body, tag, h1, h2, h3, h4, h5, _, h7⟩ :=
    decrypt_tampered _ S M c rfl (sha256_checkSum_length _) hc
  refine ⟨body, tag, h1, h2, h3, h4, h5, h7, fun h0 => ?_⟩
  have h8 := decrypt_flipped _ S M c rfl (sha256_checkSum_length _) hc h0
  rw [h1] at h8
  exact h8

set_option maxRecDepth 100000 in
/-- C3, at an instance. With passphrase "secret", room "lobby", sender "alice" and plaintext
"hello\n": the hash key is not zero; the sealed text with its first bit flipped, and with
a bit of its tag flipped, is rejected; the sealed text is rejected under the name
"carol", of the same length, and under the name "bob". -/
theorem c3_tamper_detection_witness :
    ∃ g, startup [goStr "lobby", goStr "secret"] = .ready g ∧
      g.gcm.hashKey ≠ 0 ∧
      encrypt (g.scanName (goStr "alice")) (goStr "hello\n") =
        some (goStr "g9HdK4PrSAKh9I/1AblELlTVVmFX6g==") ∧
      decrypt (g.scanName (goStr "bob")) ⟨goStr "alice", base64.EncodeToString
        (flipBit (base64.DecodeString (goStr "g9HdK4PrSAKh9I/1AblELlTVVmFX6g==")).1 0)⟩ =
        some unableToDecrypt ∧
      decrypt (g.scanName (goStr "bob")) ⟨goStr "alice", base64.EncodeToString
        (flipBit (base64.DecodeString (goStr "g9HdK4PrSAKh9I/1AblELlTVVmFX6g==")).1 100)⟩ =
        some unableToDecrypt ∧
      decrypt (g.scanName (goStr "bob")) ⟨goStr "carol",
        goStr "g9HdK4PrSAKh9I/1AblELlTVVmFX6g=="⟩ = some unableToDecrypt ∧
      decrypt (g.scanName (goStr "alice")) ⟨goStr "bob",
        goStr "g9HdK4PrSAKh9I/1AblELlTVVmFX6g=="⟩ = some unableToDecrypt := by
  obtain ⟨g, hg, h⟩ :=
    c3_tamper_detection (goStr "lobby") (goStr "secret") [] (goStr "alice") (goStr "hello\n")
  have hg2 := hg
  rw [startup_ready] at hg2
  injection hg2 with hg2
  have he : encrypt (g.scanName (goStr "alice")) (goStr "hello\n") =
      some (goStr "g9HdK4PrSAKh9I/1AblELlTVVmFX6g==") := by
    rw [← hg2]
    decide!
  have hk : g.gcm.hashKey ≠ 0 := by
    rw [← hg2]
    decide!
  have hbob : decrypt (g.scanName (goStr "alice")) ⟨goStr "bob",
      goStr "g9HdK4PrSAKh9I/1AblELlTVVmFX6g=="⟩ = some unableToDecrypt := by
    rw [← hg2]
    decide!
  obtain ⟨body, tag, h1, h2, h3, _, _, _, h7⟩ := h _ he
  obtain ⟨hflip, hname⟩ := h7 hk
  have hlen : (body ++ tag).length = 22 := by
    rw [List.length_append, h2, h3]
    decide
  rw [h1]
  exact ⟨g, hg, hk, he, hflip _ 0 (by rw [hlen]; decide), hflip _ 100 (by rw [hlen]; decide),
    hname _ (goStr "carol") 0 (by decide) (by decide) (by decide) (by decide), hbob⟩

set_option maxRecDepth 100000 in
/-- C4, counterexample. With passphrase "secret" and room "lobby" the nonce is not the
hash of the topic bytes followed by the derived key bytes. -/
theorem c4_nonce_input_counterexample :
    ∃ g, startup [goStr "lobby", goStr "secret"] = .ready g ∧
      g.nonce ≠ sha256.checkSum (g.subj ++ g.keyHash) := by
  refine ⟨_, startup_ready _ _ _, ?_⟩
  decide!

/-- C4, amended. For every room and passphrase the hash that gives the nonce has been
written the passphrase, then the topic `snats.1.<room>`, then the derived key: the nonce
is the SHA-256 checksum of these three byte sequences in this order, a function of the
room and the passphrase. -/
theorem c4_nonce_input (room key : GoString) (rest : List GoString) :
    ∃ g, startup (room :: key :: rest) = .ready g ∧
      g.subj = goStr "snats." ++ proto ++ goStr "." ++ room ∧
      g.keyHash = (sha256.New.Write key).Sum ∧
      g.nonce = (((sha256.New.Write key).Write g.subj).Write g.keyHash).Sum ∧
      g.nonce = sha256.checkSum (key ++ g.subj ++ g.keyHash) := by
  refine ⟨_, startup_ready room key rest, rfl, ?_, ?_, rfl⟩
  · simp [sha256.digest.Write, sha256.digest.Sum, sha256.New]
  · simp [sha256.digest.Write, sha256.digest.Sum, sha256.New]

/-- C5. Envelope codec round trip: for every byte sequence `B`, the empty one included,
`base64.StdEncoding.DecodeString` applied to `base64.StdEncoding.EncodeToString(B)`
returns exactly `B` and a nil error. -/
theorem c5_base64_roundtrip (B : List Byte) :
    base64.DecodeString (base64.EncodeToString B) = (B, false) :=
  base64.decodeFrom_EncodeToString B

/-- C6. Nonce length: for every room name and passphrase the set-up succeeds and leaves a
nonce that is a fixed function of the two, 32 bytes long, which is `sha256.Size`, the
nonce size the AEAD was constructed with; so no call of `Open` in `decrypt` panics, and
`Seal` in `encrypt` panics only on a message above the GCM limit, never for the nonce. -/
theorem c6_nonce_length (room key : GoString) (rest : List GoString) :
    ∃ g, startup (room :: key :: rest) = .ready g ∧
      g.nonce = sha256.checkSum
        (key ++ (goStr "snats." ++ proto ++ goStr "." ++ room) ++ sha256.checkSum key) ∧
      g.nonce.length = 32 ∧ g.gcm.nonceSize = sha256.Size ∧
      g.nonce.length = g.gcm.nonceSize ∧
      (∀ S msg, decrypt (g.scanName S) msg ≠ none) ∧
      ∀ S M, encrypt (g.scanName S) M = none ↔ M.length > cipher.gcmMaxPlaintext := by
  refine ⟨_, startup_ready room key rest, rfl, sha256_checkSum_length _, rfl,
    sha256_checkSum_length _, ?_, ?_⟩
  · intro S msg
    exact decrypt_ne_none _ S msg (by exact sha256_checkSum_length _)
  · intro S M
    exact encrypt_eq_none_iff _ S M (by exact sha256_checkSum_length _)

/-- C7. Key derivation: for every passphrase, of any length, the derived key is the SHA-256
checksum of the passphrase alone (the same on every run, whatever the room), exactly 32
bytes long, and accepted by `aes.NewCipher`; no argument list makes the set-up end in
the fatal "Can't create cipher" branch. -/
theorem c7_key_derivation (room key : GoString) (rest : List GoString) :
    (∃ g, startup (room :: key :: rest) = .ready g ∧ g.key = key ∧
      g.keyHash = sha256.checkSum key ∧ g.keyHash.length = 32 ∧
      (aes.NewCipher g.keyHash).isSome = true) ∧
    ∀ args, startup args ≠ .cantCreateCipher := by
  refine ⟨⟨_, startup_ready room key rest, rfl, rfl, sha256_checkSum_length _, ?_⟩, ?_⟩
  · simp [aes_NewCipher_of_length _ (sha256_checkSum_length key)]
  · intro args
    match args with
    | [] => simp [startup]
    | [a] => simp [startup]
    | room :: key :: rest => rw [startup_ready]; simp

/-- C10. Argument bounds fail: an argument list of exactly one element passes the
argument-count check `len(args) < 1` and then `args[1]` is out of range. -/
theorem c10_one_argument_panics (room : GoString) :
    startup [room] = .indexOutOfRange := by
  simp [startup]

end SecureNatsChat
